import Mathlib

/-!
Verification development for the `api-discovery-tool` repository
(`extract_api.py`): a depth-bounded recursive site crawler with
relevance filtering and OpenAPI-spec discovery.

Strings are modelled as `List Char` (the type `Url` below).  The
Python standard-library URL helpers (`urllib.parse.urlparse`,
`urljoin`) are modelled faithfully for inputs free of ASCII control
characters, tabs, newlines and bracketed (IPv6) host parts — the
domain on which the repository operates; `str.lower` is modelled as
ASCII lowercasing.  The remote scraping service (Firecrawl) is an
external collaborator and is modelled as an oracle `Env.fetch` from
fetch requests to either an exception message, a falsy (absent)
response, or response data.
-/

/-- Strings of the embedded program are lists of characters. -/
abbrev Url := List Char

/-- Convenience: the character list of a Lean string literal. -/
def str (s : String) : Url := s.data

/-- The ASCII apostrophe character (one of the two quote characters
recognised by the href regular expressions). -/
def squote : Char := Char.ofNat 39

/-- ASCII lowercasing of one character, as CPython `str.lower` acts on
ASCII data (model of `url.lower()` etc.). -/
def lowerC (c : Char) : Char :=
  if 65 ≤ c.toNat ∧ c.toNat ≤ 90 then Char.ofNat (c.toNat + 32) else c

/-- `s.lower()` on ASCII data. -/
def lowerS (s : Url) : Url := s.map lowerC

/-- Python `needle in hay` for strings: substring containment.
`needle` occurs as a prefix of some suffix of `hay`. -/
def containsSub (hay needle : Url) : Bool :=
  match hay with
  | [] => needle.isEmpty
  | _ :: t => needle.isPrefixOf hay || containsSub t needle

/-- Python truthiness of an optional string: present and non-empty. -/
def truthyS (o : Option Url) : Bool :=
  match o with
  | some s => !s.isEmpty
  | none => false

/-- Python truthiness of an optional list: present and non-empty. -/
def truthyL (o : Option (List Url)) : Bool :=
  match o with
  | some l => !l.isEmpty
  | none => false

/-! ## Model of `urllib.parse.urlsplit` (CPython ≥ 3.11)

`urlsplit` splits a URL into `(scheme, netloc, path, query, fragment)`:
the scheme is the longest run of scheme characters before the first
`:` provided it is non-empty and starts with an ASCII letter (the
scheme is lowercased); the netloc follows a leading `//` up to the
first of `/?#`; the fragment is everything after the first `#` of the
remainder, and the query everything after the first `?` of what is
left. -/

/-- Characters admissible in a URL scheme
(`scheme_chars` in CPython's `urllib.parse`). -/
def schemeChar (c : Char) : Bool :=
  (97 ≤ c.toNat ∧ c.toNat ≤ 122) ∨ (65 ≤ c.toNat ∧ c.toNat ≤ 90) ∨
    (48 ≤ c.toNat ∧ c.toNat ≤ 57) ∨ c = '+' ∨ c = '-' ∨ c = '.'

/-- ASCII letter test (CPython `url[0].isascii() and url[0].isalpha()`). -/
def asciiAlpha (c : Char) : Bool :=
  (97 ≤ c.toNat ∧ c.toNat ≤ 122) ∨ (65 ≤ c.toNat ∧ c.toNat ≤ 90)

/-- Split off the scheme: `(scheme, rest)` where `rest` is the input
with `scheme:` removed, or `([], input)` when no valid scheme. -/
def splitScheme (u : Url) : Url × Url :=
  let pre := u.takeWhile (· ≠ ':')
  let post := u.dropWhile (· ≠ ':')
  if pre ≠ [] ∧ post ≠ [] ∧ (pre.headD ' ' |> asciiAlpha) ∧ pre.all schemeChar then
    (pre.map lowerC, post.tail)
  else
    ([], u)

/-- `_splitnetloc`: take the netloc up to the first of `/?#`. -/
def splitNetloc (u : Url) : Url × Url :=
  (u.takeWhile (fun c => !(c = '/' ∨ c = '?' ∨ c = '#')),
   u.dropWhile (fun c => !(c = '/' ∨ c = '?' ∨ c = '#')))

/-- Model of `urlsplit`, returning `(scheme, netloc, path, query,
fragment)`. -/
def urlsplitFull (u : Url) : Url × Url × Url × Url × Url :=
  let sr := splitScheme u
  let nr := if sr.2.take 2 = ['/', '/'] then splitNetloc (sr.2.drop 2) else ([], sr.2)
  let beforeFrag := nr.2.takeWhile (· ≠ '#')
  let fragment := (nr.2.dropWhile (· ≠ '#')).tail
  let path := beforeFrag.takeWhile (· ≠ '?')
  let query := (beforeFrag.dropWhile (· ≠ '?')).tail
  (sr.1, nr.1, path, query, fragment)

/-- The `(scheme, netloc, path)` projection of `urlsplit`. -/
def urlsplitSNP (u : Url) : Url × Url × Url :=
  let f := urlsplitFull u
  (f.1, f.2.1, f.2.2.1)

/-- CPython `uses_params`: the schemes for which `urlparse` splits
`;params` off the last path segment. -/
def usesParams : List Url :=
  [str "", str "ftp", str "hdl", str "prospero", str "http", str "imap",
   str "https", str "shttp", str "rtsp", str "rtspu", str "sip",
   str "sips", str "mms", str "sftp", str "tel"]

/-- `_splitparams`: split `;params` off the last path segment. -/
def splitParams (p : Url) : Url × Url :=
  if '/' ∈ p then
    let suffix := (p.reverse.takeWhile (· ≠ '/')).reverse
    if ';' ∈ suffix then
      let i := p.length - suffix.length + (suffix.takeWhile (· ≠ ';')).length
      (p.take i, p.drop (i + 1))
    else (p, [])
  else
    (p.takeWhile (· ≠ ';'), (p.dropWhile (· ≠ ';')).tail)

/-- The `(scheme, netloc, path)` projection of CPython `urlparse` (the
components `clean_url` and `is_api_related_link` read): `urlsplit`,
then `_splitparams` applied to the path when the scheme is in
`uses_params` and the path contains `;`. -/
def urlparseSNP (u : Url) : Url × Url × Url :=
  let s := urlsplitSNP u
  (s.1, s.2.1, if s.1 ∈ usesParams ∧ ';' ∈ s.2.2 then (splitParams s.2.2).1 else s.2.2)

/-! ## `clean_url` (extract_api.py, lines 55–68) -/

/-- Fuel-driven scanner for
`re.sub(r'\[([^\]]+)\]\(([^)]+)\)', r'\2', url)`:
scan left to right; at a `[`, a markdown link `[text](target)` (with
non-empty bracket-free `text` and non-empty paren-free `target`)
is replaced by `target`, scanning resuming after the closing `)`;
otherwise the character is kept and scanning advances by one.  Every
recursive call consumes at least one character, so fuel equal to the
input length (supplied by `mdSub`) is never exhausted; structural
recursion on the fuel keeps the function kernel-reducible. -/
def mdSubAux : Nat → Url → Url
  | 0, u => u
  | _ + 1, [] => []
  | fuel + 1, c :: rest =>
    if c = '[' then
      let a := rest.takeWhile (· ≠ ']')
      match rest.dropWhile (· ≠ ']') with
      | ']' :: '(' :: r2 =>
        if a ≠ [] then
          let b := r2.takeWhile (· ≠ ')')
          match r2.dropWhile (· ≠ ')') with
          | ')' :: r4 =>
            if b ≠ [] then b ++ mdSubAux fuel r4 else c :: mdSubAux fuel rest
          | _ => c :: mdSubAux fuel rest
        else c :: mdSubAux fuel rest
      | _ => c :: mdSubAux fuel rest
    else c :: mdSubAux fuel rest

/-- The markdown-link stripping pass of `clean_url`. -/
def mdSub (u : Url) : Url := mdSubAux u.length u

/-- Reassembly `f"{parsed.scheme}://{parsed.netloc}{parsed.path}"` of
the parsed components. -/
def cleanCore (snp : Url × Url × Url) : Url :=
  snp.1 ++ ':' :: '/' :: '/' :: (snp.2.1 ++ snp.2.2)

/-- `clean_url` (extract_api.py lines 55–68): strip markdown link
syntax, reassemble `scheme://netloc+path` from `urlparse` (dropping
params, query and fragment), then remove one trailing slash when the
result is longer than 8 characters. -/
def clean_url (url : Url) : Url :=
  let u := mdSub url
  let c := cleanCore (urlparseSNP u)
  if c.getLast? = some '/' ∧ 8 < c.length then c.dropLast else c

/-! ## `is_api_related_link` (extract_api.py, lines 70–108) -/

/-- The positive keyword list (`api_keywords`). -/
def api_keywords : List Url :=
  [str "api", str "endpoint", str "swagger", str "openapi", str "spec",
   str "docs", str "documentation", str "reference", str "guide",
   str "tutorial", str "integration", str "developer", str "dev",
   str "rest", str "graphql", str "webhook", str "auth",
   str "authentication", str "oauth", str "sandbox", str "postman",
   str "curl", str "json", str "xml", str "response", str "request",
   str "psd2", str "aisp", str "pisp", str "cbpii", str "berlin-group",
   str "stet", str "open-banking"]

/-- The negative keyword list (`negative_keywords`). -/
def negative_keywords : List Url :=
  [str "login", str "logout", str "register", str "signup", str "signin",
   str "privacy", str "terms", str "cookie", str "gdpr", str "legal",
   str "contact", str "about", str "news", str "blog", str "career",
   str "job", str "press", str "media", str "investor",
   str "support-ticket", str "forum", str "community", str "social",
   str "facebook", str "twitter", str "linkedin"]

/-- The netloc of a URL (`urlparse(u).netloc`). -/
def netlocOf (u : Url) : Url := (urlsplitSNP u).2.1

/-- `is_api_related_link` (extract_api.py lines 70–108): reject URLs
whose domain is unrelated to the base domain (substring test in both
directions), then reject on any negative keyword, then accept exactly
when some positive keyword occurs in the lowercased URL. -/
def is_api_related_link (url base_url : Url) : Bool :=
  let base_domain := netlocOf base_url
  let url_domain := netlocOf url
  if !containsSub url_domain base_domain ∧ !containsSub base_domain url_domain then
    false
  else
    let url_lower := lowerS url
    if negative_keywords.any (fun k => containsSub url_lower k) then
      false
    else if api_keywords.any (fun k => containsSub url_lower k) then
      true
    else
      false

/-! ## Helper lemmas on characters and scanning -/

theorem char_toNat_ofNat {n : Nat} (h : n < 55296) : (Char.ofNat n).toNat = n := by
  have hv : n.isValidChar := Or.inl h
  simp only [Char.ofNat, dif_pos hv, Char.ofNatAux, Char.toNat, UInt32.toNat]
  rfl

theorem lowerC_eq_self_of {c : Char} (h : ¬(65 ≤ c.toNat ∧ c.toNat ≤ 90)) :
    lowerC c = c := by
  unfold lowerC
  exact if_neg h

theorem lowerC_toNat (c : Char) :
    (lowerC c).toNat =
      if 65 ≤ c.toNat ∧ c.toNat ≤ 90 then c.toNat + 32 else c.toNat := by
  by_cases h : 65 ≤ c.toNat ∧ c.toNat ≤ 90
  · rw [if_pos h]
    unfold lowerC
    rw [if_pos h]
    exact char_toNat_ofNat (by omega)
  · rw [if_neg h, lowerC_eq_self_of h]

theorem lowerC_idem (c : Char) : lowerC (lowerC c) = lowerC c := by
  by_cases h : 65 ≤ c.toNat ∧ c.toNat ≤ 90
  · have h1 : (lowerC c).toNat = c.toNat + 32 := by rw [lowerC_toNat, if_pos h]
    exact lowerC_eq_self_of (by omega)
  · rw [lowerC_eq_self_of h]
    exact lowerC_eq_self_of h

theorem asciiAlpha_lowerC {c : Char} (h : asciiAlpha c = true) :
    asciiAlpha (lowerC c) = true := by
  simp only [asciiAlpha, decide_eq_true_eq] at h ⊢
  rw [lowerC_toNat]
  rcases h with h | h
  · rw [if_neg (by omega)]; omega
  · rw [if_pos (by omega)]; omega

theorem schemeChar_lowerC {c : Char} (h : schemeChar c = true) :
    schemeChar (lowerC c) = true := by
  simp only [schemeChar, decide_eq_true_eq] at h ⊢
  rcases h with h | h | h | h | h | h
  · rw [lowerC_toNat, if_neg (by omega)]; omega
  · rw [lowerC_toNat, if_pos (by omega)]; omega
  · rw [lowerC_toNat, if_neg (by omega)]; omega
  all_goals subst h
  all_goals decide

theorem schemeChar_ne_colon {c : Char} (h : schemeChar c = true) : c ≠ ':' := by
  intro he
  subst he
  simp [schemeChar] at h

/-! ## C4 and C5: `is_api_related_link` -/

/-- C4 counterexample: the claim "for all URLs whose host differs from
the base URL's host, `is_api_related_link` returns false" fails, because
the same-domain test is a substring test: `api.x.com` differs from
`x.com` as a host, yet the link is accepted. -/
theorem is_api_related_link_differing_host_counterexample :
    netlocOf (str "https://api.x.com/docs") ≠ netlocOf (str "https://x.com") ∧
    is_api_related_link (str "https://api.x.com/docs") (str "https://x.com") = true := by
  constructor
  · decide
  · decide

/-- C4 (amended): for all URLs whose host is unrelated to the base
URL's host under the substring test in both directions (the base host
does not occur inside the URL's host nor the URL's host inside the base
host), `is_api_related_link` returns false, regardless of what keywords
the URL contains. -/
theorem is_api_related_link_foreign_host_false (url base_url : Url)
    (h1 : containsSub (netlocOf url) (netlocOf base_url) = false)
    (h2 : containsSub (netlocOf base_url) (netlocOf url) = false) :
    is_api_related_link url base_url = false := by
  simp only [is_api_related_link]
  rw [if_pos]
  simp [h1, h2]

/-- Witness for C4's amended theorem at a concrete foreign host. -/
theorem is_api_related_link_foreign_host_false_witness :
    containsSub (netlocOf (str "https://other.org/api")) (netlocOf (str "https://x.com")) = false ∧
    containsSub (netlocOf (str "https://x.com")) (netlocOf (str "https://other.org/api")) = false ∧
    is_api_related_link (str "https://other.org/api") (str "https://x.com") = false :=
  ⟨by decide, by decide,
    is_api_related_link_foreign_host_false (str "https://other.org/api") (str "https://x.com")
      (by decide) (by decide)⟩

/-- C5: for every URL passing the (substring-based) same-domain check,
`is_api_related_link` returns false whenever the lowercased URL contains
a negative keyword (negative keywords take precedence), and otherwise
returns true exactly when the lowercased URL contains at least one
positive keyword. -/
theorem is_api_related_link_keyword_semantics (url base_url : Url)
    (hdom : (containsSub (netlocOf url) (netlocOf base_url) ||
             containsSub (netlocOf base_url) (netlocOf url)) = true) :
    (negative_keywords.any (fun k => containsSub (lowerS url) k) = true →
      is_api_related_link url base_url = false) ∧
    (negative_keywords.any (fun k => containsSub (lowerS url) k) = false →
      (is_api_related_link url base_url = true ↔
        api_keywords.any (fun k => containsSub (lowerS url) k) = true)) := by
  have hcond : ¬((!containsSub (netlocOf url) (netlocOf base_url)) = true ∧
      (!containsSub (netlocOf base_url) (netlocOf url)) = true) := by
    rcases Bool.or_eq_true_iff.mp hdom with h | h <;> simp [h]
  constructor
  · intro hneg
    simp only [is_api_related_link]
    rw [if_neg hcond, if_pos hneg]
  · intro hneg
    simp only [is_api_related_link]
    rw [if_neg hcond, if_neg (by simp [hneg])]
    by_cases hpos : api_keywords.any (fun k => containsSub (lowerS url) k) = true
    · simp [hpos]
    · simp only [Bool.not_eq_true] at hpos
      simp [hpos]

/-- Witness for C5 at the two concrete example URLs of the claim. -/
theorem is_api_related_link_keyword_semantics_witness :
    is_api_related_link (str "https://x.com/blog/api-guide") (str "https://x.com") = false ∧
    is_api_related_link (str "https://x.com/docs/api/reference") (str "https://x.com") = true :=
  ⟨(is_api_related_link_keyword_semantics (str "https://x.com/blog/api-guide")
      (str "https://x.com") (by decide)).1 (by decide),
   ((is_api_related_link_keyword_semantics (str "https://x.com/docs/api/reference")
      (str "https://x.com") (by decide)).2 (by decide)).mpr (by decide)⟩

/-! ## C6: idempotence of `clean_url` -/

theorem takeWhile_dropWhile_append {p : Char → Bool} (l₁ : Url) (c : Char) (l₂ : Url)
    (h : ∀ a ∈ l₁, p a = true) (hc : p c = false) :
    (l₁ ++ c :: l₂).takeWhile p = l₁ ∧ (l₁ ++ c :: l₂).dropWhile p = c :: l₂ := by
  induction l₁ with
  | nil => simp [List.takeWhile_cons, List.dropWhile_cons, hc]
  | cons a t ih =>
    have ha := h a (by simp)
    obtain ⟨ih1, ih2⟩ := ih (fun x hx => h x (by simp [hx]))
    simp [List.takeWhile_cons, List.dropWhile_cons, ha, ih1, ih2]

/-- Parsing a string of the form `scheme ++ ":" ++ rest` with a valid
non-empty scheme splits off exactly that scheme (lowercased). -/
theorem splitScheme_valid (sch rest : Url) (h1 : sch ≠ [])
    (h2 : asciiAlpha (sch.headD ' ') = true) (h3 : sch.all schemeChar = true) :
    splitScheme (sch ++ ':' :: rest) = (sch.map lowerC, rest) := by
  have hpos : ∀ a ∈ sch, (decide (a ≠ ':')) = true := by
    intro a ha
    rw [decide_eq_true_eq]
    exact schemeChar_ne_colon (List.all_eq_true.mp h3 a ha)
  obtain ⟨ht, hd⟩ := takeWhile_dropWhile_append sch ':' rest hpos (by decide)
  unfold splitScheme
  rw [ht, hd]
  rw [if_pos ⟨h1, by simp, h2, h3⟩]
  rfl

/-- Parsing a string beginning with `:` yields an empty scheme. -/
theorem splitScheme_colon (r : Url) : splitScheme (':' :: r) = ([], ':' :: r) := by
  unfold splitScheme
  rw [if_neg]
  intro hc
  exact hc.1 (by simp [List.takeWhile_cons])

theorem urlsplitSNP_colon (r : Url) : (urlsplitSNP (':' :: r)).1 = [] := by
  unfold urlsplitSNP urlsplitFull
  rw [splitScheme_colon]

/-- The scheme component returned by `splitScheme` is either empty or a
non-empty lowercase string of scheme characters starting with a letter. -/
theorem splitScheme_fst_props (x : Url) :
    (splitScheme x).1 = [] ∨
      ((splitScheme x).1 ≠ [] ∧ asciiAlpha ((splitScheme x).1.headD ' ') = true ∧
       (splitScheme x).1.all schemeChar = true ∧
       (splitScheme x).1.map lowerC = (splitScheme x).1) := by
  unfold splitScheme
  by_cases hc : x.takeWhile (· ≠ ':') ≠ [] ∧ x.dropWhile (· ≠ ':') ≠ [] ∧
      asciiAlpha ((x.takeWhile (· ≠ ':')).headD ' ') = true ∧
      (x.takeWhile (· ≠ ':')).all schemeChar = true
  · rw [if_pos hc]
    right
    obtain ⟨h1, _, h3, h4⟩ := hc
    refine ⟨by simpa using h1, ?_, ?_, ?_⟩
    · rcases hx : x.takeWhile (· ≠ ':') with _ | ⟨a, t⟩
      · exact absurd hx h1
      · rw [hx] at h3
        simpa using asciiAlpha_lowerC h3
    · rw [List.all_eq_true] at h4 ⊢
      intro c hc'
      obtain ⟨d, hd, rfl⟩ := List.mem_map.mp hc'
      exact schemeChar_lowerC (h4 d hd)
    · rw [List.map_map]
      exact List.map_eq_map_iff.mpr (fun a _ => lowerC_idem a)
  · rw [if_neg hc]
    exact Or.inl rfl

/-- The netloc and path components of `urlsplit` contain neither `#`
nor `?`. -/
theorem urlsplitSNP_tail_props (x : Url) :
    ∀ c ∈ (urlsplitSNP x).2.1 ++ (urlsplitSNP x).2.2, c ≠ '#' ∧ c ≠ '?' := by
  unfold urlsplitSNP urlsplitFull
  dsimp only
  intro c hc
  rcases List.mem_append.mp hc with hn | hp
  · -- netloc component: either from `splitNetloc` or empty
    by_cases h2 : (splitScheme x).2.take 2 = ['/', '/']
    · rw [if_pos h2] at hn
      unfold splitNetloc at hn
      dsimp only at hn
      have h3 := List.mem_takeWhile_imp hn
      simp only [Bool.not_eq_true', decide_eq_false_iff_not] at h3
      push_neg at h3
      exact ⟨h3.2.2, h3.2.1⟩
    · rw [if_neg h2] at hn
      simp at hn
  · -- path component: inside both takeWhile passes
    have h1 := List.mem_takeWhile_imp hp
    have h0 := (List.takeWhile_sublist _).mem hp
    have h3 := List.mem_takeWhile_imp h0
    rw [decide_eq_true_eq] at h1 h3
    exact ⟨h3, h1⟩

/-- Properties of the three components of `urlsplitSNP`. -/
theorem urlsplitSNP_props (x : Url) :
    ((urlsplitSNP x).1 = [] ∨
      ((urlsplitSNP x).1 ≠ [] ∧ asciiAlpha ((urlsplitSNP x).1.headD ' ') = true ∧
       (urlsplitSNP x).1.all schemeChar = true ∧
       (urlsplitSNP x).1.map lowerC = (urlsplitSNP x).1)) ∧
    (∀ c ∈ (urlsplitSNP x).2.1 ++ (urlsplitSNP x).2.2, c ≠ '#' ∧ c ≠ '?') := by
  refine ⟨?_, urlsplitSNP_tail_props x⟩
  have hfst : (urlsplitSNP x).1 = (splitScheme x).1 := rfl
  rw [hfst]
  exact splitScheme_fst_props x

/-- The path reported by `_splitparams` is a sublist of its input. -/
theorem splitParams_fst_sublist (p : Url) : ((splitParams p).1).Sublist p := by
  unfold splitParams
  by_cases h1 : '/' ∈ p
  · rw [if_pos h1]
    dsimp only
    by_cases h2 : ';' ∈ (p.reverse.takeWhile (· ≠ '/')).reverse
    · rw [if_pos h2]
      exact List.take_sublist _ _
    · rw [if_neg h2]
  · rw [if_neg h1]
    exact List.takeWhile_sublist _

/-- Properties of the three components of `urlparseSNP`: the scheme is
empty or a valid lowercase scheme, and netloc and (params-split) path
contain neither `#` nor `?`. -/
theorem urlparseSNP_props (x : Url) :
    ((urlparseSNP x).1 = [] ∨
      ((urlparseSNP x).1 ≠ [] ∧ asciiAlpha ((urlparseSNP x).1.headD ' ') = true ∧
       (urlparseSNP x).1.all schemeChar = true ∧
       (urlparseSNP x).1.map lowerC = (urlparseSNP x).1)) ∧
    (∀ c ∈ (urlparseSNP x).2.1 ++ (urlparseSNP x).2.2, c ≠ '#' ∧ c ≠ '?') := by
  constructor
  · have hfst : (urlparseSNP x).1 = (urlsplitSNP x).1 := rfl
    rw [hfst]
    exact (urlsplitSNP_props x).1
  · intro c hc
    apply (urlsplitSNP_props x).2
    have hnl : (urlparseSNP x).2.1 = (urlsplitSNP x).2.1 := rfl
    have hp : (urlparseSNP x).2.2 =
        if (urlsplitSNP x).1 ∈ usesParams ∧ ';' ∈ (urlsplitSNP x).2.2
        then (splitParams (urlsplitSNP x).2.2).1 else (urlsplitSNP x).2.2 := rfl
    rcases List.mem_append.mp hc with h | h
    · rw [hnl] at h
      exact List.mem_append_left _ h
    · apply List.mem_append_right
      rw [hp] at h
      by_cases hcond : (urlsplitSNP x).1 ∈ usesParams ∧ ';' ∈ (urlsplitSNP x).2.2
      · rw [if_pos hcond] at h
        exact (splitParams_fst_sublist _).mem h
      · rwa [if_neg hcond] at h

/-- Reparsing `scheme ++ "://" ++ t` for a valid lowercase scheme and a
`#`- and `?`-free tail recovers the scheme, and netloc and path
concatenate back to `t`. -/
theorem urlsplitSNP_recon (sch t : Url) (h1 : sch ≠ [])
    (h2 : asciiAlpha (sch.headD ' ') = true) (h3 : sch.all schemeChar = true)
    (h4 : sch.map lowerC = sch) (h5 : ∀ c ∈ t, c ≠ '#' ∧ c ≠ '?') :
    ∃ nl p, urlsplitSNP (sch ++ ':' :: '/' :: '/' :: t) = (sch, nl, p) ∧ nl ++ p = t := by
  have hrest2 : ∀ c ∈ (splitNetloc t).2, c ≠ '#' ∧ c ≠ '?' := by
    intro c hcm
    exact h5 c ((List.dropWhile_sublist _).mem hcm)
  have hbf : ((splitNetloc t).2.takeWhile (· ≠ '#')) = (splitNetloc t).2 :=
    List.takeWhile_eq_self_iff.mpr
      (fun a ha => by rw [decide_eq_true_eq]; exact (hrest2 a ha).1)
  have hpq : ((splitNetloc t).2.takeWhile (· ≠ '?')) = (splitNetloc t).2 :=
    List.takeWhile_eq_self_iff.mpr
      (fun a ha => by rw [decide_eq_true_eq]; exact (hrest2 a ha).2)
  refine ⟨(splitNetloc t).1, (splitNetloc t).2, ?_, List.takeWhile_append_dropWhile _ _⟩
  have hmid : urlsplitSNP (sch ++ ':' :: '/' :: '/' :: t) =
      (sch.map lowerC, (splitNetloc t).1,
       ((splitNetloc t).2.takeWhile (· ≠ '#')).takeWhile (· ≠ '?')) := by
    unfold urlsplitSNP urlsplitFull
    rw [splitScheme_valid sch _ h1 h2 h3]
    rfl
  rw [hmid, h4, hbf, hpq]

/-- When `urlsplit` reports a path on which the params split does not
fire, `urlparse` reports the same three components. -/
theorem urlparseSNP_of_split (x sch nl p : Url) (h : urlsplitSNP x = (sch, nl, p))
    (hc : ¬(sch ∈ usesParams ∧ ';' ∈ p)) : urlparseSNP x = (sch, nl, p) := by
  have hq : urlparseSNP x = ((urlsplitSNP x).1, (urlsplitSNP x).2.1,
      if (urlsplitSNP x).1 ∈ usesParams ∧ ';' ∈ (urlsplitSNP x).2.2
      then (splitParams (urlsplitSNP x).2.2).1 else (urlsplitSNP x).2.2) := rfl
  rw [h] at hq
  dsimp only at hq
  rwa [if_neg hc] at hq

/-- Reparsing `scheme ++ "://" ++ t` under `urlparse` for a valid
lowercase scheme and a `#`-, `?`- and `;`-free tail recovers the
scheme, and netloc and path concatenate back to `t` (the params split
does not fire, the path being `;`-free). -/
theorem urlparseSNP_recon (sch t : Url) (h1 : sch ≠ [])
    (h2 : asciiAlpha (sch.headD ' ') = true) (h3 : sch.all schemeChar = true)
    (h4 : sch.map lowerC = sch) (h5 : ∀ c ∈ t, c ≠ '#' ∧ c ≠ '?')
    (h6 : ';' ∉ t) :
    ∃ nl p, urlparseSNP (sch ++ ':' :: '/' :: '/' :: t) = (sch, nl, p) ∧ nl ++ p = t := by
  obtain ⟨nl, p, hre, hcat⟩ := urlsplitSNP_recon sch t h1 h2 h3 h4 h5
  refine ⟨nl, p, ?_, hcat⟩
  apply urlparseSNP_of_split _ _ _ _ hre
  rintro ⟨-, hsem⟩
  exact h6 (by rw [← hcat]; exact List.mem_append_right _ hsem)

/-- If the markdown pass fixes `S`, `S` parses (under `urlparse`) as
`(sch, nl, p)`, and the reassembled string neither ends in `/` nor
triggers the slash strip, then `clean_url S` is exactly the
reassembled string. -/
theorem clean_url_of_recon (S sch nl p : Url)
    (hmd : mdSub S = S)
    (hre : urlparseSNP S = (sch, nl, p))
    (hns : ¬((sch ++ ':' :: '/' :: '/' :: (nl ++ p)).getLast? = some '/' ∧
        8 < (sch ++ ':' :: '/' :: '/' :: (nl ++ p)).length)) :
    clean_url S = sch ++ ':' :: '/' :: '/' :: (nl ++ p) := by
  have hdef : clean_url S =
      (if (cleanCore (urlparseSNP (mdSub S))).getLast? = some '/' ∧
          8 < (cleanCore (urlparseSNP (mdSub S))).length
       then (cleanCore (urlparseSNP (mdSub S))).dropLast
       else cleanCore (urlparseSNP (mdSub S))) := rfl
  rw [hmd, hre] at hdef
  have hcore : cleanCore (sch, nl, p) = sch ++ ':' :: '/' :: '/' :: (nl ++ p) := rfl
  rw [hcore] at hdef
  rw [hdef, if_neg hns]

/-- C6 counterexample: `clean_url` is not idempotent.  On the
scheme-less URL `example.com` the first pass produces
`://example.com` and a second pass produces `://://example.com`. -/
theorem clean_url_not_idempotent_counterexample :
    clean_url (clean_url (str "example.com")) ≠ clean_url (str "example.com") := by
  decide

/-- C6 (amended): `clean_url` is idempotent on every URL whose cleaned
form is left unchanged by the markdown-stripping pass, parses with a
non-empty scheme, does not end in `/`, and contains no `;`.  (Each
condition is forced by a failure of the unrestricted claim: scheme-less
URLs such as the counterexample's grow a fresh `://` prefix on every
pass; a cleaned form still containing a markdown-link pattern is
rewritten again; a cleaned form still ending in `/` can lose one more
character on the next pass; and a cleaned form whose last path segment
still contains `;` — such as `https://x.com/a;b`, the cleaned form of
`https://x.com/a;b/` — loses its `;params` part on the next pass,
`urlparse` splitting parameters off the last segment.) -/
theorem clean_url_idempotent_amended (u : Url)
    (hmd : mdSub (clean_url u) = clean_url u)
    (hscheme : (urlsplitSNP (clean_url u)).1 ≠ [])
    (hslash : (clean_url u).getLast? ≠ some '/')
    (hsemi : ';' ∉ clean_url u) :
    clean_url (clean_url u) = clean_url u := by
  obtain ⟨sch, nl, p, hsplit⟩ : ∃ a b c, urlparseSNP (mdSub u) = (a, b, c) :=
    ⟨_, _, _, rfl⟩
  have hprops := urlparseSNP_props (mdSub u)
  rw [hsplit] at hprops
  dsimp only at hprops
  have hcu : clean_url u =
      if (sch ++ ':' :: '/' :: '/' :: (nl ++ p)).getLast? = some '/' ∧
          8 < (sch ++ ':' :: '/' :: '/' :: (nl ++ p)).length
      then (sch ++ ':' :: '/' :: '/' :: (nl ++ p)).dropLast
      else sch ++ ':' :: '/' :: '/' :: (nl ++ p) := by
    have hdef : clean_url u =
        (if (cleanCore (urlparseSNP (mdSub u))).getLast? = some '/' ∧
            8 < (cleanCore (urlparseSNP (mdSub u))).length
         then (cleanCore (urlparseSNP (mdSub u))).dropLast
         else cleanCore (urlparseSNP (mdSub u))) := rfl
    rw [hsplit] at hdef
    exact hdef
  rcases hprops.1 with h0 | ⟨hne, halpha, hchars, hlower⟩
  · -- empty scheme: the cleaned URL begins with ':' and reparses with
    -- an empty scheme, contradicting `hscheme`
    exfalso
    apply hscheme
    rw [hcu, h0]
    simp only [List.nil_append]
    by_cases hstrip : ((':' :: '/' :: '/' :: (nl ++ p)).getLast? = some '/' ∧
        8 < (':' :: '/' :: '/' :: (nl ++ p)).length)
    · rw [if_pos hstrip]
      rcases hnp : nl ++ p with _ | ⟨a, t⟩
      · exfalso
        have h8 := hstrip.2
        rw [hnp] at h8
        simp at h8
      · rw [show (':' :: '/' :: '/' :: a :: t).dropLast =
              ':' :: ('/' :: '/' :: a :: t).dropLast from rfl]
        exact urlsplitSNP_colon _
    · rw [if_neg hstrip]
      exact urlsplitSNP_colon _
  · by_cases hstrip : ((sch ++ ':' :: '/' :: '/' :: (nl ++ p)).getLast? = some '/' ∧
        8 < (sch ++ ':' :: '/' :: '/' :: (nl ++ p)).length)
    · -- a trailing slash was stripped
      by_cases ht0 : nl ++ p = []
      · -- then the cleaned URL is `sch:/`, which ends in '/': against `hslash`
        exfalso
        apply hslash
        rw [hcu, if_pos hstrip, ht0]
        rw [show sch ++ ':' :: '/' :: '/' :: (([] : Url)) = (sch ++ [':', '/']) ++ ['/'] by simp]
        rw [List.dropLast_concat]
        rw [show sch ++ [':', '/'] = (sch ++ [':']) ++ ['/'] by simp]
        exact List.getLast?_concat _
      · -- `nl ++ p` ends in '/': peel it off
        have hlast : (nl ++ p).getLast? = some '/' := by
          have h := hstrip.1
          rw [show sch ++ ':' :: '/' :: '/' :: (nl ++ p) =
                (sch ++ [':', '/', '/']) ++ (nl ++ p) by simp] at h
          rwa [List.getLast?_append_of_ne_nil _ ht0] at h
        obtain ⟨t₁, ht1⟩ : ∃ t₁, nl ++ p = t₁ ++ ['/'] := by
          refine ⟨(nl ++ p).dropLast, ?_⟩
          rw [List.getLast?_eq_getLast (nl ++ p) ht0] at hlast
          have hgl : (nl ++ p).getLast ht0 = '/' := Option.some_inj.mp hlast
          rw [← hgl]
          exact (List.dropLast_concat_getLast ht0).symm
        have hs : clean_url u = sch ++ ':' :: '/' :: '/' :: t₁ := by
          rw [hcu, if_pos hstrip, ht1]
          rw [show sch ++ ':' :: '/' :: '/' :: (t₁ ++ ['/']) =
                (sch ++ ':' :: '/' :: '/' :: t₁) ++ ['/'] by simp]
          exact List.dropLast_concat
        have hmem : ∀ c ∈ t₁, c ≠ '#' ∧ c ≠ '?' := by
          intro c hcmem
          apply hprops.2
          rw [ht1]
          exact List.mem_append_left _ hcmem
        rw [hs] at hmd hslash hsemi ⊢
        have hsem1 : ';' ∉ t₁ := fun hx =>
          hsemi (List.mem_append_right _ (by simp [hx]))
        obtain ⟨nl', p', hre, hcat⟩ :=
          urlparseSNP_recon sch t₁ hne halpha hchars hlower hmem hsem1
        refine Eq.trans (clean_url_of_recon _ sch nl' p' hmd hre ?_) ?_
        · rw [hcat]
          intro hx
          exact hslash hx.1
        · rw [hcat]
    · -- no strip happened
      have hs : clean_url u = sch ++ ':' :: '/' :: '/' :: (nl ++ p) := by
        rw [hcu, if_neg hstrip]
      rw [hs] at hmd hslash hsemi ⊢
      have hsem1 : ';' ∉ nl ++ p := fun hx =>
        hsemi (List.mem_append_right _ (by simp [hx]))
      obtain ⟨nl', p', hre, hcat⟩ :=
        urlparseSNP_recon sch (nl ++ p) hne halpha hchars hlower hprops.2 hsem1
      refine Eq.trans (clean_url_of_recon _ sch nl' p' hmd hre ?_) ?_
      · rw [hcat]
        intro hx
        exact hslash hx.1
      · rw [hcat]

/-- Witness for C6's amended theorem at a concrete URL. -/
theorem clean_url_idempotent_amended_witness :
    mdSub (clean_url (str "https://x.com/docs")) = clean_url (str "https://x.com/docs") ∧
    (urlsplitSNP (clean_url (str "https://x.com/docs"))).1 ≠ [] ∧
    (clean_url (str "https://x.com/docs")).getLast? ≠ some '/' ∧
    ';' ∉ clean_url (str "https://x.com/docs") ∧
    clean_url (clean_url (str "https://x.com/docs")) = clean_url (str "https://x.com/docs") :=
  ⟨by decide, by decide, by decide, by decide,
   clean_url_idempotent_amended (str "https://x.com/docs") (by decide) (by decide) (by decide)
     (by decide)⟩

/-! ## Model of `urllib.parse.urljoin` (CPython ≥ 3.11)

The repository calls `urljoin(base_url, x)` only with `x` beginning
with `/` (both call sites check `startswith('/')` first), so the model
covers exactly that case of the RFC 3986 join: the relative reference
never carries a scheme of its own and its scheme therefore defaults to
the base scheme. -/

/-- CPython `uses_relative`. -/
def usesRelative : List Url :=
  [str "", str "ftp", str "http", str "gopher", str "nntp", str "imap",
   str "wais", str "file", str "https", str "shttp", str "mms",
   str "prospero", str "rtsp", str "rtspu", str "sftp", str "svn",
   str "svn+ssh", str "ws", str "wss"]

/-- CPython `uses_netloc`. -/
def usesNetloc : List Url :=
  [str "", str "ftp", str "http", str "gopher", str "nntp", str "telnet",
   str "imap", str "wais", str "file", str "mms", str "https", str "shttp",
   str "snews", str "prospero", str "rtsp", str "rtspu", str "rsync",
   str "svn", str "svn+ssh", str "sftp", str "nfs", str "git",
   str "git+ssh", str "ws", str "wss", str "itms-services"]

/-- Python `s.split('/')`. -/
def splitSlash : Url → List Url
  | [] => [[]]
  | c :: rest =>
    match splitSlash rest with
    | [] => []
    | h :: t => if c = '/' then [] :: h :: t else (c :: h) :: t

/-- `segments[1:-1] = filter(None, segments[1:-1])`: drop empty strings
strictly between the first and last element. -/
def filterInner : List Url → List Url
  | [] => []
  | [a] => [a]
  | a :: b :: rest =>
    a :: ((b :: rest).dropLast.filter (fun s => !s.isEmpty) ++
          [(b :: rest).getLast (by simp)])

/-- CPython `urlunsplit` restricted to its five components. -/
def urlunsplit (scheme netloc path query frag : Url) : Url :=
  let u1 :=
    if netloc ≠ [] ∨ (path ≠ [] ∧ path.take 2 = ['/', '/']) then
      '/' :: '/' :: (netloc ++
        (if path ≠ [] ∧ path.head? ≠ some '/' then '/' :: path else path))
    else path
  let u2 := if scheme ≠ [] then scheme ++ ':' :: u1 else u1
  let u3 := if query ≠ [] then u2 ++ '?' :: query else u2
  if frag ≠ [] then u3 ++ '#' :: frag else u3

/-- CPython `urlunparse`: reattach `;params` to the path, then
`urlunsplit`. -/
def urlunparse (scheme netloc path params query frag : Url) : Url :=
  urlunsplit scheme netloc (if params ≠ [] then path ++ ';' :: params else path) query frag

/-- CPython `urljoin(base, rel)` for `rel` beginning with `/`. -/
def urljoinSlash (base rel : Url) : Url :=
  if base = [] then rel
  else if rel = [] then base
  else
    let (bscheme, bnetloc, bpath0, bquery, bfrag) := urlsplitFull base
    let bp := if bscheme ∈ usesParams ∧ ';' ∈ bpath0 then splitParams bpath0 else (bpath0, [])
    let nr := if rel.take 2 = ['/', '/'] then splitNetloc (rel.drop 2) else ([], rel)
    let rbeforeFrag := nr.2.takeWhile (· ≠ '#')
    let rfrag := (nr.2.dropWhile (· ≠ '#')).tail
    let rpath0 := rbeforeFrag.takeWhile (· ≠ '?')
    let rquery := (rbeforeFrag.dropWhile (· ≠ '?')).tail
    let rp := if bscheme ∈ usesParams ∧ ';' ∈ rpath0 then splitParams rpath0 else (rpath0, [])
    if bscheme ∉ usesRelative then rel
    else if bscheme ∈ usesNetloc ∧ nr.1 ≠ [] then
      urlunparse bscheme nr.1 rp.1 rp.2 rquery rfrag
    else
      let netloc := if bscheme ∈ usesNetloc then bnetloc else nr.1
      if rp.1 = [] ∧ rp.2 = [] then
        urlunparse bscheme netloc bp.1 bp.2 (if rquery = [] then bquery else rquery) bfrag
      else
        let segments :=
          if rp.1.head? = some '/' then splitSlash rp.1
          else
            let baseParts := splitSlash bp.1
            let baseParts := if baseParts.getLast? ≠ some ([] : Url) then baseParts.dropLast else baseParts
            filterInner (baseParts ++ splitSlash rp.1)
        let resolved := segments.foldl
          (fun acc seg =>
            if seg = str ".." then acc.dropLast
            else if seg = str "." then acc
            else acc ++ [seg]) []
        let resolved :=
          if segments.getLast? = some (str ".") ∨ segments.getLast? = some (str "..") then
            resolved ++ [[]]
          else resolved
        let joined := List.intercalate ['/'] resolved
        urlunparse bscheme netloc (if joined = [] then ['/'] else joined) rp.2 rquery rfrag

/-! ## Embedded-spec scan (extract_api.py, lines 226–244)

The four patterns
`href=["\']([^"\']*KW[^"\']*\.(?:json|yaml|yml))["\']` (IGNORECASE,
for KW = openapi, swagger, spec, api) are scanned with `re.findall`
semantics: left to right, non-overlapping, retrying at the next
character after a failed position.  At a candidate position the
pattern matches exactly when the text reads `href=` (case-insensitive)
followed by a quote, then a run `R` of quote-free characters followed
by another quote, where `R` ends in `.json`/`.yaml`/`.yml`
(case-insensitive) and contains KW (case-insensitive) before that
final extension; the captured group is then all of `R`. -/

/-- Does the quote-free run `R` satisfy the capture-group pattern for
keyword `kw`? -/
def groupOK (kw R : Url) : Bool :=
  let RL := R.map lowerC
  [str "json", str "yaml", str "yml"].any (fun e =>
    (('.' :: e).isSuffixOf RL) && containsSub (RL.take (RL.length - (e.length + 1))) kw)

/-- Attempt the href pattern at the head of `s`; on success return the
captured group and the remainder of the input after the closing
quote. -/
def tryHrefAt (kw s : Url) : Option (Url × Url) :=
  if (s.take 5).map lowerC = str "href=" then
    match s.drop 5 with
    | [] => none
    | q :: rest =>
      if q = '"' ∨ q = squote then
        let R := rest.takeWhile (fun c => !(c = '"' ∨ c = squote))
        match rest.dropWhile (fun c => !(c = '"' ∨ c = squote)) with
        | [] => none
        | _ :: rem => if groupOK kw R then some (R, rem) else none
      else none
  else none

/-- Fuel-driven `re.findall` scan (fuel = input length suffices, every
step consumes at least one character). -/
def scanHrefAux (kw : Url) : Nat → Url → List Url
  | 0, _ => []
  | _ + 1, [] => []
  | fuel + 1, c :: rest =>
    match tryHrefAt kw (c :: rest) with
    | some (g, rem) => g :: scanHrefAux kw fuel rem
    | none => scanHrefAux kw fuel rest

/-- All captures of one href pattern over the HTML, in order. -/
def scanHref (kw html : Url) : List Url := scanHrefAux kw html.length html

/-- The four pattern keywords, in source order. -/
def openapiPatternKeywords : List Url :=
  [str "openapi", str "swagger", str "spec", str "api"]

/-- All raw pattern captures over the HTML, grouped by pattern in
source order (the order the code appends them in). -/
def hrefMatches (html : Url) : List Url :=
  openapiPatternKeywords.flatMap (fun kw => scanHref kw html)

/-- Resolution of one raw capture (extract_api.py lines 238–243):
leading `/` resolves against the base URL, absolute http(s) URLs are
kept, anything else is discarded. -/
def resolveSpecMatch (base_url m : Url) : Option Url :=
  if m.head? = some '/' then some (urljoinSlash base_url m)
  else if (str "http://").isPrefixOf m ∨ (str "https://").isPrefixOf m then some m
  else none

/-- The `openapi_urls` list assembled by the embedded-spec scan. -/
def embeddedSpecUrls (html base_url : Url) : List Url :=
  (hrefMatches html).filterMap (resolveSpecMatch base_url)

/-- C9: every raw capture beginning with `/` is resolved against the
base URL via `urljoin`, absolute http(s) captures are kept unchanged,
and all other captures are discarded; concretely, HTML containing
`href="/v2/openapi.json"` with base `https://x.com` yields
`https://x.com/v2/openapi.json`. -/
theorem embedded_spec_resolution :
    (∀ html base_url u, u ∈ embeddedSpecUrls html base_url ↔
      ∃ m ∈ hrefMatches html,
        (m.head? = some '/' ∧ u = urljoinSlash base_url m) ∨
        (m.head? ≠ some '/' ∧
         ((str "http://").isPrefixOf m ∨ (str "https://").isPrefixOf m) ∧ u = m)) ∧
    str "https://x.com/v2/openapi.json" ∈
      embeddedSpecUrls (str "<a href=\"/v2/openapi.json\">spec</a>") (str "https://x.com") := by
  constructor
  · intro html base_url u
    rw [embeddedSpecUrls, List.mem_filterMap]
    constructor
    · rintro ⟨m, hm, hres⟩
      refine ⟨m, hm, ?_⟩
      by_cases h1 : m.head? = some '/'
      · rw [resolveSpecMatch, if_pos h1] at hres
        exact Or.inl ⟨h1, (Option.some_inj.mp hres).symm⟩
      · rw [resolveSpecMatch, if_neg h1] at hres
        by_cases h2 : (str "http://").isPrefixOf m ∨ (str "https://").isPrefixOf m
        · rw [if_pos h2] at hres
          exact Or.inr ⟨h1, h2, (Option.some_inj.mp hres).symm⟩
        · rw [if_neg h2] at hres
          exact absurd hres (Option.some_ne_none u).symm
    · rintro ⟨m, hm, h⟩
      refine ⟨m, hm, ?_⟩
      rcases h with ⟨h1, rfl⟩ | ⟨h1, h2, rfl⟩
      · rw [resolveSpecMatch, if_pos h1]
      · rw [resolveSpecMatch, if_neg h1, if_pos h2]
  · decide

/-! ## The crawl driver (extract_api.py, lines 110–351)

The Firecrawl client is an external collaborator: `Env.fetch` maps a
fetch request to either an exception message (`Except.error`), a falsy
response (`Except.ok none`, which the code turns into the
"No response received from Firecrawl" exception), or response data.
`Env.hasKey` models the presence of `FIRECRAWL_API_KEY`.  Each fetch
performed is recorded in a trace, tagged with its role.  The fixed
rate-limit sleeps have no observable effect in this model.

Python's `list(set(xs))` has unspecified order; the model deduplicates
keeping the first occurrence (the properties proved below do not
depend on that order).  Recursion is structural on the fuel
`max_depth + 1 - depth`, which reaches `0` exactly when the source's
`depth > max_depth` guard fires, and both return the same empty
result, so the model computes exactly what the source computes. -/

/-- The content formats the scraper can be asked for. -/
inductive Format where
  | markdown | html | links | screenshot
deriving DecidableEq, Repr

/-- One request to the scraping service. -/
structure FetchCall where
  url : Url
  formats : List Format
  timeout : Option Nat
  wait_for : Option Nat
deriving DecidableEq, Repr

/-- The response object of the scraping service (all fields optional,
read via `getattr(·, ·, None)`). -/
structure ScrapedData where
  markdown : Option Url
  html : Option Url
  screenshot : Option Url
  links : Option (List Url)
deriving DecidableEq, Repr

/-- The role a fetch plays in the crawl. -/
inductive FetchKind where
  | visit | specEmbedded | specProbe | pdfRetry
deriving DecidableEq, Repr

/-- The environment: API-key presence and the scraping oracle. -/
structure Env where
  hasKey : Bool
  fetch : FetchCall → Except Url (Option ScrapedData)

/-- A discovered spec candidate `{url, content: {markdown, html}}`. -/
structure SpecCandidate where
  url : Url
  markdown : Option Url
  html : Option Url
deriving DecidableEq, Repr

/-- The `content` sub-dictionary of a PageResult. -/
structure PageContent where
  markdown : Option Url
  html : Option Url
  screenshot : Option Url
deriving DecidableEq, Repr

/-- The result dictionary built for one visited URL.  `openapi_specs`
is an optional field: `none` models the key being absent. -/
inductive PageResult where
  | mk (url : Url) (content : PageContent) (links : List Url)
       (child_pages : List PageResult)
       (openapi_specs : Option (List SpecCandidate))

def PageResult.url : PageResult → Url
  | .mk u _ _ _ _ => u

def PageResult.content : PageResult → PageContent
  | .mk _ c _ _ _ => c

def PageResult.links : PageResult → List Url
  | .mk _ _ l _ _ => l

def PageResult.child_pages : PageResult → List PageResult
  | .mk _ _ _ cp _ => cp

def PageResult.openapi_specs : PageResult → Option (List SpecCandidate)
  | .mk _ _ _ _ s => s

/-- A fetch trace: every request issued, in order, with its role. -/
abbrev Trace := List (FetchKind × FetchCall)

/-- Result of one `extract_site_content` call: the page result (`none`
for the empty dictionary), the visited set after the call, and the
fetch trace. -/
abbrev CrawlOut := Option PageResult × List Url × Trace

/-- `url.lower().endswith('.pdf')`. -/
def isPdf (u : Url) : Bool := (str ".pdf").isSuffixOf (lowerS u)

/-- `f"{parsed.scheme}://{parsed.netloc}"` (extract_api.py line 205). -/
def schemeNetloc (u : Url) : Url :=
  (urlsplitSNP u).1 ++ ':' :: '/' :: '/' :: (urlsplitSNP u).2.1

/-- The main fetch request for a URL (lines 184–199): PDFs request
markdown+html with a 120 s timeout and 5 s wait, other pages request
markdown, links, html and a screenshot with a 30 s timeout and 2 s
wait. -/
def mainFetchCall (u : Url) : FetchCall :=
  if isPdf u then ⟨u, [.markdown, .html], some 120000, some 5000⟩
  else ⟨u, [.markdown, .links, .html, .screenshot], some 30000, some 2000⟩

/-- The single PDF retry request (lines 329–334): markdown only, 60 s
timeout, 1 s wait. -/
def pdfRetryCall (u : Url) : FetchCall := ⟨u, [.markdown], some 60000, some 1000⟩

/-- A bare markdown+html fetch (spec candidates and common-endpoint
probes, lines 126–129 and 254–257). -/
def mdHtmlCall (u : Url) : FetchCall := ⟨u, [.markdown, .html], none, none⟩

/-- Does the failure message qualify for the PDF retry (line 325)? -/
def retryMsgMatch (e : Url) : Bool :=
  containsSub (lowerS e) (str "timeout") || containsSub (lowerS e) (str "internal server error")

/-- The `except` handler of `extract_site_content` (lines 321–351):
for a PDF whose failure message mentions a timeout or an internal
server error, retry once with reduced parameters and build a leaf
result from a truthy retry response; otherwise return the empty
result. -/
def handleFetchError (env : Env) (u e : Url) : Option PageResult × Trace :=
  if isPdf u ∧ retryMsgMatch e then
    let call := pdfRetryCall u
    match env.fetch call with
    | .ok (some d) =>
      (some (.mk u ⟨d.markdown, d.html, none⟩ [] [] none), [(.pdfRetry, call)])
    | .ok none => (none, [(.pdfRetry, call)])
    | .error _ => (none, [(.pdfRetry, call)])
  else (none, [])

/-- The 14 conventional spec paths (lines 112–118). -/
def common_paths : List Url :=
  [str "/openapi.json", str "/openapi.yaml", str "/openapi.yml",
   str "/swagger.json", str "/swagger.yaml", str "/swagger.yml",
   str "/api-docs", str "/api-docs.json", str "/api-docs.yaml",
   str "/v1/openapi.json", str "/v2/openapi.json", str "/v3/openapi.json",
   str "/docs/openapi.json", str "/documentation/openapi.json"]

/-- Probe loop of `try_common_openapi_endpoints` (lines 121–143): one
fetch per path; a candidate is recorded exactly when the response is
truthy with truthy markdown or html; failures are skipped. -/
def tryCommonAux (env : Env) (base_url : Url) :
    List Url → List SpecCandidate × Trace
  | [] => ([], [])
  | p :: rest =>
    let call := mdHtmlCall (base_url ++ p)
    let out := tryCommonAux env base_url rest
    match env.fetch call with
    | .error _ => (out.1, (.specProbe, call) :: out.2)
    | .ok none => (out.1, (.specProbe, call) :: out.2)
    | .ok (some d) =>
      (if truthyS d.markdown || truthyS d.html then
        ⟨base_url ++ p, d.markdown, d.html⟩ :: out.1
       else out.1,
       (.specProbe, call) :: out.2)

/-- `try_common_openapi_endpoints` (lines 110–145). -/
def try_common_openapi_endpoints (env : Env) (base_url : Url) :
    List SpecCandidate × Trace :=
  tryCommonAux env base_url common_paths

/-- Fetch loop over the (at most 3) embedded spec candidates (lines
249–271): like the probe loop, with per-candidate failures caught. -/
def fetchSpecCandidates (env : Env) : List Url → List SpecCandidate × Trace
  | [] => ([], [])
  | u :: rest =>
    let call := mdHtmlCall u
    let out := fetchSpecCandidates env rest
    match env.fetch call with
    | .error _ => (out.1, (.specEmbedded, call) :: out.2)
    | .ok none => (out.1, (.specEmbedded, call) :: out.2)
    | .ok (some d) =>
      (if truthyS d.markdown || truthyS d.html then
        ⟨u, d.markdown, d.html⟩ :: out.1
       else out.1,
       (.specEmbedded, call) :: out.2)

/-- Deduplication of the relevant-link list.  Python's `list(set(xs))`
has unspecified order; the model keeps first occurrences. -/
def dedupAux : List Url → List Url → List Url
  | _, [] => []
  | seen, x :: rest =>
    if x ∈ seen then dedupAux seen rest else x :: dedupAux (x :: seen) rest

def dedupFirst (l : List Url) : List Url := dedupAux [] l

/-- Link filtering (lines 285–302): resolve relative links against the
base, keep absolute http(s) links, discard the rest; clean each
survivor and keep it when `is_api_related_link` accepts it;
deduplicate. -/
def processLinks (base_url : Url) (ls : List Url) : List Url :=
  dedupFirst (ls.filterMap (fun link =>
    let full? :=
      if link.head? = some '/' then some (urljoinSlash base_url link)
      else if (str "http://").isPrefixOf link ∨ (str "https://").isPrefixOf link then
        some link
      else none
    match full? with
    | none => none
    | some f =>
      let fc := clean_url f
      if is_api_related_link fc base_url then some fc else none))

/-- The child loop (lines 312–317): visit children in order, threading
the visited set; a falsy child result is omitted from
`child_pages`.  The child crawler `f` is a parameter (the recursive
call at `depth + 1`). -/
def crawlChildrenAux (f : Url → List Url → CrawlOut) :
    List Url → List Url → List PageResult × List Url × Trace
  | [], visited => ([], visited, [])
  | u :: rest, visited =>
    let out1 := f u visited
    let out2 := crawlChildrenAux f rest out1.2.1
    ((match out1.1 with
      | some x => x :: out2.1
      | none => out2.1),
     out2.2.1, out1.2.2 ++ out2.2.2)

/-- One step of `extract_site_content` (lines 147–351), with the
recursive call for child pages abstracted as `f` (invoked at
`depth + 1` by `extractAux`). -/
def crawlStep (env : Env) (f : Url → List Url → CrawlOut) (url : Url)
    (depth max_depth : Nat) (visited_urls : List Url) : CrawlOut :=
  if depth > max_depth ∨ url ∈ visited_urls then (none, visited_urls, [])
  else
    let visited := url :: visited_urls
    if env.hasKey = false then
      let out := handleFetchError env url
        (str "FIRECRAWL_API_KEY not found in environment variables.")
      (out.1, visited, out.2)
    else
      let mainCall := mainFetchCall url
      match env.fetch mainCall with
      | .error e =>
        let out := handleFetchError env url e
        (out.1, visited, (FetchKind.visit, mainCall) :: out.2)
      | .ok none =>
        let out := handleFetchError env url (str "No response received from Firecrawl")
        (out.1, visited, (FetchKind.visit, mainCall) :: out.2)
      | .ok (some d) =>
        let base_url := schemeNetloc url
        let content : PageContent :=
          ⟨d.markdown, d.html, if isPdf url then none else d.screenshot⟩
        if isPdf url then
          (some (.mk url content [] [] none), visited, [(.visit, mainCall)])
        else
          let openapi_urls :=
            if truthyS d.html then embeddedSpecUrls (d.html.getD []) base_url else []
          let es :=
            if openapi_urls ≠ [] then fetchSpecCandidates env (openapi_urls.take 3)
            else ([], [])
          let cs :=
            if openapi_urls = [] ∧ depth = 0 then try_common_openapi_endpoints env base_url
            else ([], [])
          let specsOpt : Option (List SpecCandidate) :=
            if openapi_urls ≠ [] then (if es.1 ≠ [] then some es.1 else none)
            else if depth = 0 ∧ cs.1 ≠ [] then some cs.1 else none
          let api_related_links :=
            if truthyL d.links then processLinks base_url (d.links.getD []) else []
          let ch :=
            if depth < max_depth ∧ api_related_links ≠ [] then
              crawlChildrenAux f ((api_related_links.filter (· ≠ url)).take 3) visited
            else ([], visited, [])
          (some (.mk url content api_related_links ch.1 specsOpt),
           ch.2.1, (FetchKind.visit, mainCall) :: (es.2 ++ cs.2 ++ ch.2.2))

/-- `extract_site_content` with explicit fuel (see the section
comment); faithful to lines 147–351 of the source. -/
def extractAux (env : Env) : Nat → Url → Nat → Nat → List Url → CrawlOut
  | 0, _, _, _, visited_urls => (none, visited_urls, [])
  | fuel + 1, url, depth, max_depth, visited_urls =>
    crawlStep env (fun u v => extractAux env fuel u (depth + 1) max_depth v)
      url depth max_depth visited_urls

/-- `extract_site_content(url, depth, max_depth, visited_urls)`
(lines 147–351). -/
def extract_site_content (env : Env) (url : Url) (depth max_depth : Nat)
    (visited_urls : List Url) : CrawlOut :=
  extractAux env (max_depth + 1 - depth) url depth max_depth visited_urls


/-! ## Trace observations -/

/-- URLs of the visit (crawl-target) fetches in a trace, in order. -/
def visitUrls (t : Trace) : List Url :=
  t.filterMap (fun e => if e.1 = FetchKind.visit then some e.2.url else none)

theorem visitUrls_append (t₁ t₂ : Trace) :
    visitUrls (t₁ ++ t₂) = visitUrls t₁ ++ visitUrls t₂ := by
  simp [visitUrls]

theorem visitUrls_cons_visit (c : FetchCall) (t : Trace) :
    visitUrls ((FetchKind.visit, c) :: t) = c.url :: visitUrls t := by
  simp [visitUrls, List.filterMap_cons]

theorem visitUrls_cons_other (k : FetchKind) (c : FetchCall) (t : Trace)
    (h : ¬k = FetchKind.visit) :
    visitUrls ((k, c) :: t) = visitUrls t := by
  simp [visitUrls, List.filterMap_cons, h]

theorem mainFetchCall_url (u : Url) : (mainFetchCall u).url = u := by
  unfold mainFetchCall
  split <;> rfl

/-- The probe loop fetches exactly one request per path, in order,
regardless of outcomes. -/
theorem tryCommonAux_trace (env : Env) (b : Url) (l : List Url) :
    (tryCommonAux env b l).2 = l.map (fun p => (FetchKind.specProbe, mdHtmlCall (b ++ p))) := by
  induction l with
  | nil => rfl
  | cons p rest ih =>
    rw [tryCommonAux]
    cases hf : env.fetch (mdHtmlCall (b ++ p)) with
    | error e => simpa using ih
    | ok od => cases od <;> simpa using ih

/-- The embedded-candidate loop likewise fetches one request per
candidate. -/
theorem fetchSpecCandidates_trace (env : Env) (l : List Url) :
    (fetchSpecCandidates env l).2 = l.map (fun u => (FetchKind.specEmbedded, mdHtmlCall u)) := by
  induction l with
  | nil => rfl
  | cons u rest ih =>
    rw [fetchSpecCandidates]
    cases hf : env.fetch (mdHtmlCall u) with
    | error e => simpa using ih
    | ok od => cases od <;> simpa using ih

theorem visitUrls_map_other (k : FetchKind) (h : ¬k = FetchKind.visit)
    (f : Url → FetchCall) (l : List Url) :
    visitUrls (l.map (fun u => (k, f u))) = [] := by
  induction l with
  | nil => rfl
  | cons u rest ih => rw [List.map_cons, visitUrls_cons_other _ _ _ h, ih]

theorem visitUrls_handleFetchError (env : Env) (u e : Url) :
    visitUrls (handleFetchError env u e).2 = [] := by
  unfold handleFetchError
  split
  · dsimp only
    cases hf : env.fetch (pdfRetryCall u) with
    | error e2 => rfl
    | ok od => cases od <;> rfl
  · rfl

/-! ## C1: at-most-once visiting -/

/-- Invariant of one crawl call: the visited set only grows, every
visited (crawl-target) URL of the trace lands in the final visited set
and was not in the initial one, and no URL is visited twice. -/
abbrev VisitedInv (v v' : List Url) (t : Trace) : Prop :=
  (∀ x ∈ v, x ∈ v') ∧ (∀ x ∈ visitUrls t, x ∈ v' ∧ x ∉ v) ∧ (visitUrls t).Nodup

theorem VisitedInv.trivial (v : List Url) : VisitedInv v v [] :=
  ⟨fun _ h => h, by simp [visitUrls], by simp [visitUrls]⟩

theorem crawlChildrenAux_inv (f : Url → List Url → CrawlOut)
    (hf : ∀ u v, VisitedInv v (f u v).2.1 (f u v).2.2) :
    ∀ (urls v : List Url),
      VisitedInv v (crawlChildrenAux f urls v).2.1 (crawlChildrenAux f urls v).2.2 := by
  intro urls
  induction urls with
  | nil => intro v; exact VisitedInv.trivial v
  | cons u rest ih =>
    intro v
    rw [crawlChildrenAux]
    obtain ⟨h1, h2, h3⟩ := hf u v
    obtain ⟨g1, g2, g3⟩ := ih (f u v).2.1
    dsimp only
    refine ⟨fun x hx => g1 x (h1 x hx), ?_, ?_⟩
    · intro x hx
      rw [visitUrls_append] at hx
      rcases List.mem_append.mp hx with hx | hx
      · obtain ⟨ha, hb⟩ := h2 x hx
        exact ⟨g1 x ha, hb⟩
      · obtain ⟨ha, hb⟩ := g2 x hx
        exact ⟨ha, fun hv => hb (h1 x hv)⟩
    · rw [visitUrls_append, List.nodup_append]
      refine ⟨h3, g3, ?_⟩
      intro x hx1 hx2
      exact (g2 x hx2).2 ((h2 x hx1).1)

/-- Invariant for the two spec-fetch branches: their traces contain no
visit entries. -/
theorem visitUrls_specBranch (env : Env) (P : Prop) [Decidable P] (l : List Url) :
    visitUrls (if P then fetchSpecCandidates env l else ([], [])).2 = [] := by
  split
  · rw [fetchSpecCandidates_trace]
    exact visitUrls_map_other _ (by simp) _ _
  · rfl

theorem visitUrls_probeBranch (env : Env) (P : Prop) [Decidable P] (b : Url) :
    visitUrls (if P then try_common_openapi_endpoints env b else ([], [])).2 = [] := by
  split
  · rw [try_common_openapi_endpoints, tryCommonAux_trace]
    exact visitUrls_map_other _ (by simp) _ _
  · rfl

/-- Assembling the invariant for a successful non-PDF visit. -/
theorem visit_assemble_inv {v : List Url} {u : Url} (hnv : u ∉ v)
    (ch2 : List Url) (tch tes tcs : Trace)
    (hes : visitUrls tes = []) (hcs : visitUrls tcs = [])
    (hinv : VisitedInv (u :: v) ch2 tch) :
    VisitedInv v ch2 ((FetchKind.visit, mainFetchCall u) :: (tes ++ tcs ++ tch)) := by
  obtain ⟨h1, h2, h3⟩ := hinv
  have hvu : visitUrls ((FetchKind.visit, mainFetchCall u) :: (tes ++ tcs ++ tch)) =
      u :: visitUrls tch := by
    rw [visitUrls_cons_visit, mainFetchCall_url, visitUrls_append, visitUrls_append,
      hes, hcs]
    rfl
  refine ⟨fun x hx => h1 x (List.mem_cons_of_mem _ hx), ?_, ?_⟩
  · intro x hx
    rw [hvu] at hx
    rcases List.mem_cons.mp hx with rfl | hx
    · exact ⟨h1 x (List.mem_cons_self _ _), hnv⟩
    · obtain ⟨ha, hb⟩ := h2 x hx
      exact ⟨ha, fun hv => hb (List.mem_cons_of_mem _ hv)⟩
  · rw [hvu, List.nodup_cons]
    exact ⟨fun hu => (h2 u hu).2 (List.mem_cons_self _ _), h3⟩

/-- Assembling the invariant for a visit whose trace is the main call
followed by a visit-free tail, and whose final visited set is
`u :: v`. -/
theorem visit_assemble_simple {v : List Url} {u : Url} (hnv : u ∉ v)
    (tr : Trace) (htr : visitUrls tr = []) :
    VisitedInv v (u :: v) ((FetchKind.visit, mainFetchCall u) :: tr) := by
  rw [VisitedInv, visitUrls_cons_visit, mainFetchCall_url, htr]
  refine ⟨fun x hx => List.mem_cons_of_mem _ hx, ?_, by simp⟩
  intro x hx
  rcases List.mem_cons.mp hx with rfl | hx
  · exact ⟨List.mem_cons_self _ _, hnv⟩
  · simp at hx

theorem crawlStep_inv (env : Env) (f : Url → List Url → CrawlOut)
    (hf : ∀ u v, VisitedInv v (f u v).2.1 (f u v).2.2)
    (u : Url) (dep m : Nat) (v : List Url) :
    VisitedInv v (crawlStep env f u dep m v).2.1 (crawlStep env f u dep m v).2.2 := by
  unfold crawlStep
  by_cases h1 : dep > m ∨ u ∈ v
  · rw [if_pos h1]
    exact VisitedInv.trivial v
  · rw [if_neg h1]
    have hnv : u ∉ v := fun h => h1 (Or.inr h)
    by_cases h2 : env.hasKey = false
    · rw [if_pos h2]
      dsimp only
      refine ⟨fun x hx => List.mem_cons_of_mem _ hx, ?_, ?_⟩
      · intro x hx
        rw [visitUrls_handleFetchError] at hx
        simp at hx
      · rw [visitUrls_handleFetchError]
        exact List.nodup_nil
    · rw [if_neg h2]
      dsimp only
      cases hfetch : env.fetch (mainFetchCall u) with
      | error e =>
        dsimp only
        exact visit_assemble_simple hnv _ (visitUrls_handleFetchError env u e)
      | ok od =>
        cases od with
        | none =>
          dsimp only
          exact visit_assemble_simple hnv _ (visitUrls_handleFetchError env u _)
        | some dd =>
          dsimp only
          by_cases hpdf : isPdf u = true
          · rw [if_pos hpdf]
            exact visit_assemble_simple hnv [] rfl
          · rw [if_neg hpdf]
            dsimp only
            refine visit_assemble_inv hnv _ _ _ _
              (visitUrls_specBranch env _ _) (visitUrls_probeBranch env _ _) ?_
            split <;> split
            all_goals first
              | exact crawlChildrenAux_inv f hf _ _
              | exact VisitedInv.trivial _

theorem extractAux_inv (env : Env) :
    ∀ (fuel : Nat) (url : Url) (depth max_depth : Nat) (v : List Url),
      VisitedInv v (extractAux env fuel url depth max_depth v).2.1
        (extractAux env fuel url depth max_depth v).2.2 := by
  intro fuel
  induction fuel with
  | zero => intro u dep m v; exact VisitedInv.trivial v
  | succ fuel ih =>
    intro u dep m v
    rw [extractAux]
    exact crawlStep_inv env _ (fun u' v' => ih u' (dep + 1) m v') u dep m v

theorem count_le_one_of_nodup {l : List Url} (h : l.Nodup) (x : Url) :
    l.count x ≤ 1 := by
  induction l with
  | nil => simp
  | cons a t ih =>
    obtain ⟨hna, ht⟩ := List.nodup_cons.mp h
    by_cases hax : a = x
    · subst hax
      have h0 : t.count a = 0 := List.count_eq_zero.mpr hna
      simp [List.count_cons, h0]
    · have := ih ht
      simp [List.count_cons, hax]
      omega

/-- C1: within one top-level crawl invocation no URL is visited (made
a crawl target) more than once: the list of visit fetches of the trace
has no duplicate URLs, so every URL — in particular each member of a
link cycle such as A→B→A — is fetched as a crawl target at most once;
termination is inherent in the model (`extract_site_content` is a
total function). -/
theorem crawl_visits_nodup (env : Env) (url : Url) (max_depth : Nat) :
    (visitUrls (extract_site_content env url 0 max_depth []).2.2).Nodup ∧
    ∀ x, (visitUrls (extract_site_content env url 0 max_depth []).2.2).count x ≤ 1 := by
  have h := extractAux_inv env (max_depth + 1 - 0) url 0 max_depth []
  rw [extract_site_content]
  exact ⟨h.2.2, fun x => count_le_one_of_nodup h.2.2 x⟩

/-! ## C2: 3-child fan-out cap -/

mutual

/-- Every node of a result tree has at most 3 child pages. -/
def childCapOK : PageResult → Bool
  | .mk _ _ _ cps _ => decide (cps.length ≤ 3) && childCapOKList cps

def childCapOKList : List PageResult → Bool
  | [] => true
  | r :: rs => childCapOK r && childCapOKList rs

end

theorem childCapOKList_iff (l : List PageResult) :
    childCapOKList l = true ↔ ∀ r ∈ l, childCapOK r = true := by
  induction l with
  | nil => simp [childCapOKList]
  | cons r rs ih =>
    rw [childCapOKList, Bool.and_eq_true, ih]
    simp

theorem childCapOK_mk (u : Url) (c : PageContent) (l : List Url)
    (cps : List PageResult) (s : Option (List SpecCandidate)) :
    childCapOK (.mk u c l cps s) = true ↔
      cps.length ≤ 3 ∧ ∀ r ∈ cps, childCapOK r = true := by
  rw [childCapOK, Bool.and_eq_true, childCapOKList_iff]
  simp

/-- Results produced by the error handler are leaves. -/
theorem handleFetchError_some (env : Env) (u e : Url) (r : PageResult)
    (h : (handleFetchError env u e).1 = some r) :
    ∃ d, env.fetch (pdfRetryCall u) = .ok (some d) ∧
      r = .mk u ⟨d.markdown, d.html, none⟩ [] [] none := by
  unfold handleFetchError at h
  split at h
  · dsimp only at h
    cases hf : env.fetch (pdfRetryCall u) with
    | error e2 => rw [hf] at h; simp at h
    | ok od =>
      cases od with
      | none => rw [hf] at h; simp at h
      | some d =>
        rw [hf] at h
        simp only [Option.some_inj] at h
        exact ⟨d, rfl, h.symm⟩
  · simp at h

theorem crawlChildrenAux_all (f : Url → List Url → CrawlOut)
    (P : PageResult → Prop)
    (hf : ∀ u v r, (f u v).1 = some r → P r) :
    ∀ (urls v : List Url) (r : PageResult),
      r ∈ (crawlChildrenAux f urls v).1 → P r := by
  intro urls
  induction urls with
  | nil => intro v r hr; simp [crawlChildrenAux] at hr
  | cons u rest ih =>
    intro v r hr
    rw [crawlChildrenAux] at hr
    dsimp only at hr
    cases hfu : (f u v).1 with
    | some x =>
      rw [hfu] at hr
      rcases List.mem_cons.mp hr with rfl | hr
      · exact hf u v r hfu
      · exact ih _ r hr
    | none =>
      rw [hfu] at hr
      exact ih _ r hr

theorem crawlChildrenAux_length (f : Url → List Url → CrawlOut) :
    ∀ (urls v : List Url),
      (crawlChildrenAux f urls v).1.length ≤ urls.length := by
  intro urls
  induction urls with
  | nil => intro v; simp [crawlChildrenAux]
  | cons u rest ih =>
    intro v
    rw [crawlChildrenAux]
    dsimp only
    cases hfu : (f u v).1 with
    | some x => simpa using ih _
    | none => exact Nat.le_succ_of_le (ih _)

/-- The children branch of a successful non-PDF visit caps out at 3
well-capped children. -/
theorem childBranch_cap (f : Url → List Url → CrawlOut) (C : Prop) [Decidable C]
    (L vis : List Url)
    (hf : ∀ u' v' r, (f u' v').1 = some r → childCapOK r = true) :
    (if C then crawlChildrenAux f (List.take 3 L) vis else ([], vis, [])).1.length ≤ 3 ∧
    ∀ r ∈ (if C then crawlChildrenAux f (List.take 3 L) vis else ([], vis, [])).1,
      childCapOK r = true := by
  by_cases hc : C
  · rw [if_pos hc]
    constructor
    · calc (crawlChildrenAux f (List.take 3 L) vis).1.length
          ≤ (List.take 3 L).length := crawlChildrenAux_length f _ _
        _ ≤ 3 := by
            rw [List.length_take]
            exact Nat.min_le_left _ _
    · exact fun r hr => crawlChildrenAux_all f _ hf _ _ r hr
  · rw [if_neg hc]
    simp

theorem crawlStep_cap (env : Env) (f : Url → List Url → CrawlOut)
    (u : Url) (dep m : Nat) (v : List Url)
    (hf : ∀ u' v' r, (f u' v').1 = some r → childCapOK r = true) :
    ∀ r, (crawlStep env f u dep m v).1 = some r → childCapOK r = true := by
  intro r hr
  unfold crawlStep at hr
  by_cases h1 : dep > m ∨ u ∈ v
  · rw [if_pos h1] at hr
    simp at hr
  · rw [if_neg h1] at hr
    by_cases h2 : env.hasKey = false
    · rw [if_pos h2] at hr
      dsimp only at hr
      obtain ⟨d, _, rfl⟩ := handleFetchError_some env u _ r hr
      rw [childCapOK_mk]
      simp
    · rw [if_neg h2] at hr
      dsimp only at hr
      cases hfetch : env.fetch (mainFetchCall u) with
      | error e =>
        rw [hfetch] at hr
        dsimp only at hr
        obtain ⟨d, _, rfl⟩ := handleFetchError_some env u _ r hr
        rw [childCapOK_mk]
        simp
      | ok od =>
        cases od with
        | none =>
          rw [hfetch] at hr
          dsimp only at hr
          obtain ⟨d, _, rfl⟩ := handleFetchError_some env u _ r hr
          rw [childCapOK_mk]
          simp
        | some dd =>
          rw [hfetch] at hr
          dsimp only at hr
          by_cases hpdf : isPdf u = true
          · rw [if_pos hpdf] at hr
            simp only [Option.some_inj] at hr
            subst hr
            rw [childCapOK_mk]
            simp
          · rw [if_neg hpdf] at hr
            simp only [Option.some_inj] at hr
            subst hr
            rw [childCapOK_mk]
            exact childBranch_cap f _ _ _ hf

theorem extractAux_cap (env : Env) :
    ∀ (fuel : Nat) (url : Url) (depth max_depth : Nat) (v : List Url) (r : PageResult),
      (extractAux env fuel url depth max_depth v).1 = some r → childCapOK r = true := by
  intro fuel
  induction fuel with
  | zero => intro u dep m v r hr; simp [extractAux] at hr
  | succ fuel ih =>
    intro u dep m v r hr
    rw [extractAux] at hr
    exact crawlStep_cap env _ u dep m v (fun u' v' => ih u' (dep + 1) m v') r hr

theorem childBranch_skip (f : Url → List Url → CrawlOut) {dep m : Nat} (h : ¬dep < m)
    (Q : Prop) [Decidable Q] (L vis : List Url) :
    (if dep < m ∧ Q then crawlChildrenAux f L vis else ([], vis, [])) = ([], vis, []) :=
  if_neg (fun hc => h hc.1)

/-- A call at `depth ≥ max_depth` performs at most one visit fetch. -/
theorem crawlStep_visit_len_leaf (env : Env) (f : Url → List Url → CrawlOut)
    (u : Url) (dep m : Nat) (v : List Url) (hdm : ¬dep < m) :
    (visitUrls (crawlStep env f u dep m v).2.2).length ≤ 1 := by
  unfold crawlStep
  by_cases h1 : dep > m ∨ u ∈ v
  · rw [if_pos h1]
    simp [visitUrls]
  · rw [if_neg h1]
    by_cases h2 : env.hasKey = false
    · rw [if_pos h2]
      dsimp only
      rw [visitUrls_handleFetchError]
      simp
    · rw [if_neg h2]
      dsimp only
      cases hfetch : env.fetch (mainFetchCall u) with
      | error e =>
        dsimp only
        rw [visitUrls_cons_visit, visitUrls_handleFetchError]
        simp
      | ok od =>
        cases od with
        | none =>
          dsimp only
          rw [visitUrls_cons_visit, visitUrls_handleFetchError]
          simp
        | some dd =>
          dsimp only
          by_cases hpdf : isPdf u = true
          · rw [if_pos hpdf]
            simp [visitUrls_cons_visit, visitUrls]
          · rw [if_neg hpdf]
            dsimp only
            rw [childBranch_skip f hdm]
            rw [visitUrls_cons_visit]
            dsimp only
            rw [visitUrls_append, visitUrls_append, visitUrls_specBranch,
                visitUrls_probeBranch]
            simp [visitUrls]

theorem crawlChildrenAux_visit_len (f : Url → List Url → CrawlOut)
    (hb : ∀ u v, (visitUrls (f u v).2.2).length ≤ 1) :
    ∀ (urls v : List Url),
      (visitUrls (crawlChildrenAux f urls v).2.2).length ≤ urls.length := by
  intro urls
  induction urls with
  | nil => intro v; simp [crawlChildrenAux, visitUrls]
  | cons u rest ih =>
    intro v
    rw [crawlChildrenAux]
    dsimp only
    rw [visitUrls_append, List.length_append]
    have h1 := hb u v
    have h2 := ih (f u v).2.1
    simp only [List.length_cons]
    omega

/-- A single step performs at most 1 + 3 visit fetches when every child
call performs at most one. -/
theorem crawlStep_visit_len (env : Env) (f : Url → List Url → CrawlOut)
    (u : Url) (dep m : Nat) (v : List Url)
    (hb : ∀ u' v', (visitUrls (f u' v').2.2).length ≤ 1) :
    (visitUrls (crawlStep env f u dep m v).2.2).length ≤ 4 := by
  unfold crawlStep
  by_cases h1 : dep > m ∨ u ∈ v
  · rw [if_pos h1]
    simp [visitUrls]
  · rw [if_neg h1]
    by_cases h2 : env.hasKey = false
    · rw [if_pos h2]
      dsimp only
      rw [visitUrls_handleFetchError]
      simp
    · rw [if_neg h2]
      dsimp only
      cases hfetch : env.fetch (mainFetchCall u) with
      | error e =>
        dsimp only
        rw [visitUrls_cons_visit, visitUrls_handleFetchError]
        simp
      | ok od =>
        cases od with
        | none =>
          dsimp only
          rw [visitUrls_cons_visit, visitUrls_handleFetchError]
          simp
        | some dd =>
          dsimp only
          by_cases hpdf : isPdf u = true
          · rw [if_pos hpdf]
            simp [visitUrls_cons_visit, visitUrls]
          · rw [if_neg hpdf]
            dsimp only
            rw [visitUrls_cons_visit]
            rw [visitUrls_append, visitUrls_append, visitUrls_specBranch,
                visitUrls_probeBranch]
            simp only [List.length_cons, List.nil_append, List.length_append]
            by_cases htl : truthyL dd.links = true
            · rw [if_pos htl]
              by_cases hcc : dep < m ∧ processLinks (schemeNetloc u) (dd.links.getD []) ≠ []
              · rw [if_pos hcc]
                have hlen := crawlChildrenAux_visit_len f hb
                  ((List.filter (fun x => decide (x ≠ u))
                    (processLinks (schemeNetloc u) (dd.links.getD []))).take 3) (u :: v)
                have hlen2 : ((List.filter (fun x => decide (x ≠ u))
                    (processLinks (schemeNetloc u) (dd.links.getD []))).take 3).length ≤ 3 := by
                  rw [List.length_take]
                  exact Nat.min_le_left _ _
                omega
              · rw [if_neg hcc]
                simp [visitUrls]
            · rw [if_neg htl]
              rw [if_neg (show ¬(dep < m ∧ ([] : List Url) ≠ []) from fun hc => hc.2 rfl)]
              simp [visitUrls]

/-- C2: for every visited non-PDF page the driver recurses into at
most the first 3 relevant links (excluding the page's own URL) — every
node of any result tree carries at most 3 child pages — and a
top-level crawl with `max_depth = 1` performs at most 1 root visit
fetch plus 3 child visit fetches, however many relevant links
exist. -/
theorem crawl_child_fanout_cap :
    (∀ (env : Env) (url : Url) (depth max_depth : Nat) (v : List Url) (r : PageResult),
        (extract_site_content env url depth max_depth v).1 = some r →
        childCapOK r = true) ∧
    (∀ (env : Env) (url : Url) (v : List Url),
        (visitUrls (extract_site_content env url 0 1 v).2.2).length ≤ 4) := by
  constructor
  · intro env url depth max_depth v r hr
    rw [extract_site_content] at hr
    exact extractAux_cap env _ url depth max_depth v r hr
  · intro env url v
    show (visitUrls (extractAux env 2 url 0 1 v).2.2).length ≤ 4
    rw [extractAux]
    refine crawlStep_visit_len env _ url 0 1 v ?_
    intro u' v'
    rw [extractAux]
    exact crawlStep_visit_len_leaf env _ u' (0 + 1) 1 v' (by omega)

/-- The crawl scenario of the C2 claim: a root whose page lists 5
relevant child links. -/
def envC2 : Env :=
  { hasKey := true,
    fetch := fun c =>
      if c.url = str "http://a" then
        .ok (some ⟨some (str "root"), none, none,
          some [str "/api1", str "/api2", str "/api3", str "/api4", str "/api5"]⟩)
      else if c.url = str "http://a/api1" ∨ c.url = str "http://a/api2" ∨
          c.url = str "http://a/api3" ∨ c.url = str "http://a/api4" ∨
          c.url = str "http://a/api5" then
        .ok (some ⟨some (str "child"), none, none, none⟩)
      else .ok none }

/-- Witness for C2 in the claim's own scenario (5 relevant links,
`max_depth = 1`). -/
theorem crawl_child_fanout_cap_witness :
    (∃ r, (extract_site_content envC2 (str "http://a") 0 1 []).1 = some r ∧
      childCapOK r = true) ∧
    (visitUrls (extract_site_content envC2 (str "http://a") 0 1 []).2.2).length ≤ 4 := by
  constructor
  · obtain ⟨r, hr⟩ : ∃ r, (extract_site_content envC2 (str "http://a") 0 1 []).1 = some r :=
      ⟨_, rfl⟩
    exact ⟨r, hr, crawl_child_fanout_cap.1 envC2 (str "http://a") 0 1 [] r hr⟩
  · exact crawl_child_fanout_cap.2 envC2 (str "http://a") []

/-! ## C3: failure handling and the single PDF retry -/

/-- C3: when the main fetch of a node raises, a non-qualifying failure
(non-PDF URL, or a message mentioning neither "timeout" nor "internal
server error" case-insensitively) yields the empty result with no
further fetch; a qualifying PDF failure triggers exactly one retry
with markdown-only format, 60 s timeout and 1 s wait, whose truthy
response becomes the node's (leaf) result and whose failure or falsy
response yields the empty result. -/
theorem main_fetch_error_handling (env : Env) (url e : Url) (depth max_depth : Nat)
    (v : List Url)
    (hd : depth ≤ max_depth) (hv : url ∉ v) (hk : env.hasKey = true)
    (hfetch : env.fetch (mainFetchCall url) = .error e) :
    (¬(isPdf url = true ∧ retryMsgMatch e = true) →
       extract_site_content env url depth max_depth v =
         (none, url :: v, [(FetchKind.visit, mainFetchCall url)])) ∧
    ((isPdf url = true ∧ retryMsgMatch e = true) →
       (extract_site_content env url depth max_depth v).2.2 =
         [(FetchKind.visit, mainFetchCall url),
          (FetchKind.pdfRetry, pdfRetryCall url)] ∧
       (extract_site_content env url depth max_depth v).1 =
         (match env.fetch (pdfRetryCall url) with
          | .ok (some d) => some (.mk url ⟨d.markdown, d.html, none⟩ [] [] none)
          | .ok none => none
          | .error _ => none)) := by
  obtain ⟨k, hfuel⟩ : ∃ k, max_depth + 1 - depth = k + 1 :=
    ⟨max_depth - depth, by omega⟩
  rw [extract_site_content, hfuel, extractAux]
  unfold crawlStep
  rw [if_neg (by
    intro hc
    rcases hc with hc | hc
    · omega
    · exact hv hc)]
  rw [if_neg (by rw [hk]; simp)]
  dsimp only
  rw [hfetch]
  dsimp only
  unfold handleFetchError
  constructor
  · intro hcond
    rw [if_neg hcond]
  · intro hcond
    rw [if_pos hcond]
    dsimp only
    cases hretry : env.fetch (pdfRetryCall url) with
    | error e2 => exact ⟨rfl, rfl⟩
    | ok od => cases od with
      | none => exact ⟨rfl, rfl⟩
      | some d => exact ⟨rfl, rfl⟩

/-- The environment of the C3 witness: the main fetch always raises
"Request Timeout"; only the reduced-parameter retry (recognisable by
its 60 s timeout) succeeds. -/
def envC3 : Env :=
  { hasKey := true,
    fetch := fun c =>
      if c.timeout = some 60000 then
        .ok (some ⟨some (str "pdf text"), none, none, none⟩)
      else .error (str "Request Timeout") }

/-- Witness for C3: a PDF timeout failure is retried once and the
retry's markdown becomes the leaf result; a non-PDF failure returns
the empty result with no retry fetch. -/
theorem main_fetch_error_handling_witness :
    ((extract_site_content envC3 (str "https://x.com/a.pdf") 0 1 []).2.2 =
       [(FetchKind.visit, mainFetchCall (str "https://x.com/a.pdf")),
        (FetchKind.pdfRetry, pdfRetryCall (str "https://x.com/a.pdf"))] ∧
     (extract_site_content envC3 (str "https://x.com/a.pdf") 0 1 []).1 =
       some (.mk (str "https://x.com/a.pdf")
         ⟨some (str "pdf text"), none, none⟩ [] [] none)) ∧
    extract_site_content envC3 (str "http://x.com/page") 0 1 [] =
      (none, [str "http://x.com/page"],
       [(FetchKind.visit, mainFetchCall (str "http://x.com/page"))]) := by
  constructor
  · have h := (main_fetch_error_handling envC3 (str "https://x.com/a.pdf")
      (str "Request Timeout") 0 1 [] (by omega) (by simp) rfl rfl).2 (by decide)
    exact ⟨h.1, h.2.trans rfl⟩
  · exact (main_fetch_error_handling envC3 (str "http://x.com/page")
      (str "Request Timeout") 0 1 [] (by omega) (by simp) rfl rfl).1 (by decide)

/-! ## C7: PDFs are leaves -/

theorem crawlStep_pdf_leaf (env : Env) (f : Url → List Url → CrawlOut)
    (u : Url) (dep m : Nat) (v : List Url) (r : PageResult)
    (hpdf : isPdf u = true)
    (hr : (crawlStep env f u dep m v).1 = some r) :
    r.links = [] ∧ r.openapi_specs = none ∧ r.child_pages = [] := by
  unfold crawlStep at hr
  by_cases h1 : dep > m ∨ u ∈ v
  · rw [if_pos h1] at hr
    simp at hr
  · rw [if_neg h1] at hr
    by_cases h2 : env.hasKey = false
    · rw [if_pos h2] at hr
      dsimp only at hr
      obtain ⟨d, _, rfl⟩ := handleFetchError_some env u _ r hr
      exact ⟨rfl, rfl, rfl⟩
    · rw [if_neg h2] at hr
      dsimp only at hr
      cases hfetch : env.fetch (mainFetchCall u) with
      | error e =>
        rw [hfetch] at hr
        dsimp only at hr
        obtain ⟨d, _, rfl⟩ := handleFetchError_some env u _ r hr
        exact ⟨rfl, rfl, rfl⟩
      | ok od =>
        cases od with
        | none =>
          rw [hfetch] at hr
          dsimp only at hr
          obtain ⟨d, _, rfl⟩ := handleFetchError_some env u _ r hr
          exact ⟨rfl, rfl, rfl⟩
        | some dd =>
          rw [hfetch] at hr
          dsimp only at hr
          rw [if_pos hpdf] at hr
          simp only [Option.some_inj] at hr
          subst hr
          exact ⟨rfl, rfl, rfl⟩

/-- C7: for every URL whose lowercased form ends in ".pdf", any
non-empty result the driver returns — via the normal path or the retry
path alike — has empty `links`, no `openapi_specs` key, and no child
pages. -/
theorem pdf_results_are_leaves (env : Env) (url : Url) (depth max_depth : Nat)
    (v : List Url) (r : PageResult)
    (hpdf : isPdf url = true)
    (hr : (extract_site_content env url depth max_depth v).1 = some r) :
    r.links = [] ∧ r.openapi_specs = none ∧ r.child_pages = [] := by
  rw [extract_site_content] at hr
  rcases hfuel : max_depth + 1 - depth with _ | k
  · rw [hfuel] at hr
    simp [extractAux] at hr
  · rw [hfuel] at hr
    rw [extractAux] at hr
    exact crawlStep_pdf_leaf env _ url depth max_depth v r hpdf hr

/-- Environment for the C7 witness: every fetch succeeds and even
reports links and html (which the PDF path must ignore). -/
def envC7 : Env :=
  { hasKey := true,
    fetch := fun _ =>
      .ok (some ⟨some (str "md"), some (str "<a href=\"/openapi.json\">s</a>"),
        some (str "shot"), some [str "/api"]⟩) }

/-- Witness for C7 at a concrete (uppercase-extension) PDF URL. -/
theorem pdf_results_are_leaves_witness :
    isPdf (str "https://x.com/doc.PDF") = true ∧
    ∃ r, (extract_site_content envC7 (str "https://x.com/doc.PDF") 0 3 []).1 = some r ∧
      r.links = [] ∧ r.openapi_specs = none ∧ r.child_pages = [] := by
  refine ⟨by decide, ?_⟩
  obtain ⟨r, hr⟩ :
      ∃ r, (extract_site_content envC7 (str "https://x.com/doc.PDF") 0 3 []).1 = some r :=
    ⟨_, rfl⟩
  exact ⟨r, hr, pdf_results_are_leaves envC7 _ 0 3 [] r (by decide) hr⟩

/-! ## C10: shape of a non-empty result -/

theorem fetchSpecCandidates_sound (env : Env) (l : List Url) :
    ∀ c ∈ (fetchSpecCandidates env l).1,
      (truthyS c.markdown || truthyS c.html) = true := by
  induction l with
  | nil => intro c hc; simp [fetchSpecCandidates] at hc
  | cons u rest ih =>
    intro c hc
    rw [fetchSpecCandidates] at hc
    cases hf : env.fetch (mdHtmlCall u) with
    | error e => rw [hf] at hc; exact ih c hc
    | ok od =>
      cases od with
      | none => rw [hf] at hc; exact ih c hc
      | some d =>
        rw [hf] at hc
        dsimp only at hc
        by_cases ht : (truthyS d.markdown || truthyS d.html) = true
        · rw [if_pos ht] at hc
          rcases List.mem_cons.mp hc with rfl | hc
          · exact ht
          · exact ih c hc
        · rw [if_neg ht] at hc
          exact ih c hc

theorem tryCommonAux_sound (env : Env) (b : Url) (l : List Url) :
    ∀ c ∈ (tryCommonAux env b l).1,
      (truthyS c.markdown || truthyS c.html) = true := by
  induction l with
  | nil => intro c hc; simp [tryCommonAux] at hc
  | cons p rest ih =>
    intro c hc
    rw [tryCommonAux] at hc
    cases hf : env.fetch (mdHtmlCall (b ++ p)) with
    | error e => rw [hf] at hc; exact ih c hc
    | ok od =>
      cases od with
      | none => rw [hf] at hc; exact ih c hc
      | some d =>
        rw [hf] at hc
        dsimp only at hc
        by_cases ht : (truthyS d.markdown || truthyS d.html) = true
        · rw [if_pos ht] at hc
          rcases List.mem_cons.mp hc with rfl | hc
          · exact ht
          · exact ih c hc
        · rw [if_neg ht] at hc
          exact ih c hc

theorem specBranch_sound (env : Env) (P : Prop) [Decidable P] (l : List Url) :
    ∀ c ∈ (if P then fetchSpecCandidates env l else ([], [])).1,
      (truthyS c.markdown || truthyS c.html) = true := by
  split
  · exact fetchSpecCandidates_sound env l
  · intro c hc; simp at hc

theorem probeBranch_sound (env : Env) (P : Prop) [Decidable P] (b : Url) :
    ∀ c ∈ (if P then try_common_openapi_endpoints env b else ([], [])).1,
      (truthyS c.markdown || truthyS c.html) = true := by
  split
  · exact tryCommonAux_sound env b common_paths
  · intro c hc; simp at hc

theorem someBranch (X : List SpecCandidate) (l : List SpecCandidate)
    (h : (if X ≠ [] then some X else none) = some l) : l = X ∧ X ≠ [] := by
  split at h
  · next hne => exact ⟨(Option.some_inj.mp h).symm, hne⟩
  · simp at h

theorem someBranch2 (P : Prop) [Decidable P] (X : List SpecCandidate) (l : List SpecCandidate)
    (h : (if P ∧ X ≠ [] then some X else none) = some l) : l = X ∧ X ≠ [] := by
  split at h
  · next hc => exact ⟨(Option.some_inj.mp h).symm, hc.2⟩
  · simp at h

theorem crawlStep_shape (env : Env) (f : Url → List Url → CrawlOut)
    (u : Url) (dep m : Nat) (v : List Url) (r : PageResult)
    (hr : (crawlStep env f u dep m v).1 = some r) :
    r.url = u ∧
    (∀ l, r.openapi_specs = some l →
       l ≠ [] ∧ ∀ c ∈ l, (truthyS c.markdown || truthyS c.html) = true) := by
  unfold crawlStep at hr
  by_cases h1 : dep > m ∨ u ∈ v
  · rw [if_pos h1] at hr
    simp at hr
  · rw [if_neg h1] at hr
    by_cases h2 : env.hasKey = false
    · rw [if_pos h2] at hr
      dsimp only at hr
      obtain ⟨d, _, rfl⟩ := handleFetchError_some env u _ r hr
      exact ⟨rfl, by intro l hl; simp [PageResult.openapi_specs] at hl⟩
    · rw [if_neg h2] at hr
      dsimp only at hr
      cases hfetch : env.fetch (mainFetchCall u) with
      | error e =>
        rw [hfetch] at hr
        dsimp only at hr
        obtain ⟨d, _, rfl⟩ := handleFetchError_some env u _ r hr
        exact ⟨rfl, by intro l hl; simp [PageResult.openapi_specs] at hl⟩
      | ok od =>
        cases od with
        | none =>
          rw [hfetch] at hr
          dsimp only at hr
          obtain ⟨d, _, rfl⟩ := handleFetchError_some env u _ r hr
          exact ⟨rfl, by intro l hl; simp [PageResult.openapi_specs] at hl⟩
        | some dd =>
          rw [hfetch] at hr
          dsimp only at hr
          by_cases hpdf : isPdf u = true
          · rw [if_pos hpdf] at hr
            simp only [Option.some_inj] at hr
            subst hr
            exact ⟨rfl, by intro l hl; simp [PageResult.openapi_specs] at hl⟩
          · rw [if_neg hpdf] at hr
            simp only [Option.some_inj] at hr
            subst hr
            refine ⟨rfl, ?_⟩
            intro l hl
            rw [PageResult.openapi_specs] at hl
            by_cases hA : (if truthyS dd.html = true then
                embeddedSpecUrls (dd.html.getD []) (schemeNetloc u) else []) ≠ []
            · rw [if_pos hA] at hl
              obtain ⟨rfl, hne⟩ := someBranch _ l hl
              exact ⟨hne, specBranch_sound env _ _⟩
            · rw [if_neg hA] at hl
              obtain ⟨rfl, hne⟩ := someBranch2 _ _ l hl
              exact ⟨hne, probeBranch_sound env _ _⟩

/-- C10: every non-empty result of `extract_site_content` carries the
URL the call was asked to visit; `links` and `child_pages` are always
present as (possibly empty) sequences (by construction of the result
record); and `openapi_specs`, whenever present, is a non-empty list
whose every candidate has truthy (non-empty) markdown or html. -/
theorem crawl_result_shape (env : Env) (url : Url) (depth max_depth : Nat)
    (v : List Url) (r : PageResult)
    (hr : (extract_site_content env url depth max_depth v).1 = some r) :
    r.url = url ∧
    (∀ l, r.openapi_specs = some l →
       l ≠ [] ∧ ∀ c ∈ l, (truthyS c.markdown || truthyS c.html) = true) := by
  rw [extract_site_content] at hr
  rcases hfuel : max_depth + 1 - depth with _ | k
  · rw [hfuel] at hr
    simp [extractAux] at hr
  · rw [hfuel] at hr
    rw [extractAux] at hr
    exact crawlStep_shape env _ url depth max_depth v r hr

/-- Environment for the C10 witness: the root page embeds a spec link
whose fetch succeeds. -/
def envC10 : Env :=
  { hasKey := true,
    fetch := fun c =>
      if c.url = str "https://x.com" then
        .ok (some ⟨some (str "hello"),
          some (str "<a href=\"/openapi.json\">spec</a>"), none, none⟩)
      else .ok (some ⟨some (str "spec body"), none, none, none⟩) }

/-- Witness for C10: the result's url is the requested URL and its
`openapi_specs`, being present, is non-empty with truthy contents. -/
theorem crawl_result_shape_witness :
    ∃ r, (extract_site_content envC10 (str "https://x.com") 0 1 []).1 = some r ∧
      r.url = str "https://x.com" ∧
      ∃ l, r.openapi_specs = some l ∧ l ≠ [] ∧
        ∀ c ∈ l, (truthyS c.markdown || truthyS c.html) = true := by
  have h := crawl_result_shape envC10 (str "https://x.com") 0 1 [] _ rfl
  exact ⟨_, rfl, h.1, _, rfl, (h.2 _ rfl).1, (h.2 _ rfl).2⟩

/-! ## C8: the common-endpoint probe -/

/-- A candidate for `b ++ p` is recorded by the probe loop exactly when
`p` is probed and its fetch returns a truthy response with truthy
markdown or html. -/
theorem tryCommonAux_mem (env : Env) (b : Url) (l : List Url) (p : Url) :
    (∃ c ∈ (tryCommonAux env b l).1, c.url = b ++ p) ↔
      (p ∈ l ∧ ∃ d, env.fetch (mdHtmlCall (b ++ p)) = .ok (some d) ∧
        (truthyS d.markdown || truthyS d.html) = true) := by
  induction l with
  | nil => simp [tryCommonAux]
  | cons q rest ih =>
    rw [tryCommonAux]
    cases hf : env.fetch (mdHtmlCall (b ++ q)) with
    | error e =>
      constructor
      · intro h
        obtain ⟨hp, hE⟩ := ih.mp h
        exact ⟨List.mem_cons_of_mem _ hp, hE⟩
      · rintro ⟨hp, hE⟩
        rcases List.mem_cons.mp hp with rfl | hp
        · obtain ⟨d, hd, _⟩ := hE
          rw [hf] at hd
          simp at hd
        · exact ih.mpr ⟨hp, hE⟩
    | ok od =>
      cases od with
      | none =>
        constructor
        · intro h
          obtain ⟨hp, hE⟩ := ih.mp h
          exact ⟨List.mem_cons_of_mem _ hp, hE⟩
        · rintro ⟨hp, hE⟩
          rcases List.mem_cons.mp hp with rfl | hp
          · obtain ⟨d, hd, _⟩ := hE
            rw [hf] at hd
            simp at hd
          · exact ih.mpr ⟨hp, hE⟩
      | some d =>
        dsimp only
        by_cases ht : (truthyS d.markdown || truthyS d.html) = true
        · rw [if_pos ht]
          constructor
          · rintro ⟨c, hc, hcu⟩
            rcases List.mem_cons.mp hc with rfl | hc
            · have hqp : q = p := by
                have hbq : b ++ q = b ++ p := hcu
                exact List.append_cancel_left hbq
              subst hqp
              exact ⟨List.mem_cons_self _ _, d, hf, ht⟩
            · obtain ⟨hp, hE⟩ := ih.mp ⟨c, hc, hcu⟩
              exact ⟨List.mem_cons_of_mem _ hp, hE⟩
          · rintro ⟨hp, hE⟩
            rcases List.mem_cons.mp hp with rfl | hp
            · exact ⟨⟨b ++ p, d.markdown, d.html⟩, List.mem_cons_self _ _, rfl⟩
            · obtain ⟨c, hc, hcu⟩ := ih.mpr ⟨hp, hE⟩
              exact ⟨c, List.mem_cons_of_mem _ hc, hcu⟩
        · rw [if_neg ht]
          constructor
          · intro h
            obtain ⟨hp, hE⟩ := ih.mp h
            exact ⟨List.mem_cons_of_mem _ hp, hE⟩
          · rintro ⟨hp, hE⟩
            rcases List.mem_cons.mp hp with rfl | hp
            · obtain ⟨d2, hd2, ht2⟩ := hE
              rw [hf] at hd2
              simp only [Except.ok.injEq, Option.some.injEq] at hd2
              subst hd2
              exact absurd ht2 ht
            · exact ih.mpr ⟨hp, hE⟩

theorem handleFetchError_no_probe (env : Env) (u e : Url) (c : FetchCall) :
    (FetchKind.specProbe, c) ∉ (handleFetchError env u e).2 := by
  unfold handleFetchError
  split
  · dsimp only
    cases hf : env.fetch (pdfRetryCall u) with
    | error e2 => simp
    | ok od => cases od <;> simp
  · simp

theorem specBranchTrace_no_probe (env : Env) (P : Prop) [Decidable P]
    (l : List Url) (c : FetchCall) :
    (FetchKind.specProbe, c) ∉ (if P then fetchSpecCandidates env l else ([], [])).2 := by
  split
  · rw [fetchSpecCandidates_trace]
    intro hmem
    obtain ⟨u, _, he⟩ := List.mem_map.mp hmem
    exact absurd (congrArg Prod.fst he) (by simp)
  · simp

theorem crawlChildrenAux_no_probe (f : Url → List Url → CrawlOut)
    (hf : ∀ u v c, (FetchKind.specProbe, c) ∉ (f u v).2.2) :
    ∀ (urls v : List Url) (c : FetchCall),
      (FetchKind.specProbe, c) ∉ (crawlChildrenAux f urls v).2.2 := by
  intro urls
  induction urls with
  | nil => intro v c; simp [crawlChildrenAux]
  | cons u rest ih =>
    intro v c
    rw [crawlChildrenAux]
    dsimp only
    intro hmem
    rcases List.mem_append.mp hmem with h | h
    · exact hf u v c h
    · exact ih _ c h

theorem childBranchTrace_no_probe (f : Url → List Url → CrawlOut)
    (hf : ∀ u v c, (FetchKind.specProbe, c) ∉ (f u v).2.2)
    (C : Prop) [Decidable C] (L vis : List Url) (c : FetchCall) :
    (FetchKind.specProbe, c) ∉
      (if C then crawlChildrenAux f L vis else ([], vis, [])).2.2 := by
  split
  · exact crawlChildrenAux_no_probe f hf L vis c
  · simp

/-- At a non-root depth, a step emits no probe fetch. -/
theorem crawlStep_no_probe_deep (env : Env) (f : Url → List Url → CrawlOut)
    (u : Url) (dep m : Nat) (v : List Url)
    (hf : ∀ u' v' c, (FetchKind.specProbe, c) ∉ (f u' v').2.2)
    (hdep : ¬dep = 0) (c : FetchCall) :
    (FetchKind.specProbe, c) ∉ (crawlStep env f u dep m v).2.2 := by
  unfold crawlStep
  by_cases h1 : dep > m ∨ u ∈ v
  · rw [if_pos h1]
    simp
  · rw [if_neg h1]
    by_cases h2 : env.hasKey = false
    · rw [if_pos h2]
      dsimp only
      exact handleFetchError_no_probe env u _ c
    · rw [if_neg h2]
      dsimp only
      cases hfetch : env.fetch (mainFetchCall u) with
      | error e =>
        dsimp only
        intro hmem
        rcases List.mem_cons.mp hmem with he | hmem
        · exact absurd (congrArg Prod.fst he) (by simp)
        · exact handleFetchError_no_probe env u _ c hmem
      | ok od =>
        cases od with
        | none =>
          dsimp only
          intro hmem
          rcases List.mem_cons.mp hmem with he | hmem
          · exact absurd (congrArg Prod.fst he) (by simp)
          · exact handleFetchError_no_probe env u _ c hmem
        | some dd =>
          dsimp only
          by_cases hpdf : isPdf u = true
          · rw [if_pos hpdf]
            simp
          · rw [if_neg hpdf]
            dsimp only
            rw [if_neg (show ¬((if truthyS dd.html = true then
                embeddedSpecUrls (dd.html.getD []) (schemeNetloc u) else []) = [] ∧ dep = 0)
              from fun hc => hdep hc.2)]
            intro hmem
            rcases List.mem_cons.mp hmem with he | hmem
            · exact absurd (congrArg Prod.fst he) (by simp)
            · rcases List.mem_append.mp hmem with h | h
              · rcases List.mem_append.mp h with h | h
                · exact specBranchTrace_no_probe env _ _ c h
                · simp at h
              · exact childBranchTrace_no_probe f hf _ _ _ c h

theorem extractAux_no_probe_deep (env : Env) :
    ∀ (fuel : Nat) (url : Url) (depth max_depth : Nat) (v : List Url) (c : FetchCall),
      ¬depth = 0 →
      (FetchKind.specProbe, c) ∉ (extractAux env fuel url depth max_depth v).2.2 := by
  intro fuel
  induction fuel with
  | zero => intro u dep m v c hdep; simp [extractAux]
  | succ fuel ih =>
    intro u dep m v c hdep
    rw [extractAux]
    exact crawlStep_no_probe_deep env _ u dep m v
      (fun u' v' c' => ih u' (dep + 1) m v' c' (by omega)) hdep c

/-- At the root, once the embedded scan has found candidates, no probe
fetch is emitted. -/
theorem crawlStep_no_probe_root (env : Env) (f : Url → List Url → CrawlOut)
    (u : Url) (m : Nat) (v : List Url) (d : ScrapedData)
    (hf : ∀ u' v' c, (FetchKind.specProbe, c) ∉ (f u' v').2.2)
    (hfetch : env.fetch (mainFetchCall u) = .ok (some d))
    (hhtml : truthyS d.html = true)
    (hne : embeddedSpecUrls (d.html.getD []) (schemeNetloc u) ≠ [])
    (c : FetchCall) :
    (FetchKind.specProbe, c) ∉ (crawlStep env f u 0 m v).2.2 := by
  unfold crawlStep
  by_cases h1 : 0 > m ∨ u ∈ v
  · rw [if_pos h1]
    simp
  · rw [if_neg h1]
    by_cases h2 : env.hasKey = false
    · rw [if_pos h2]
      dsimp only
      exact handleFetchError_no_probe env u _ c
    · rw [if_neg h2]
      dsimp only
      rw [hfetch]
      dsimp only
      by_cases hpdf : isPdf u = true
      · rw [if_pos hpdf]
        simp
      · rw [if_neg hpdf]
        dsimp only
        rw [if_pos hhtml]
        rw [if_neg (show ¬(embeddedSpecUrls (d.html.getD []) (schemeNetloc u) = [] ∧
            (0 : Nat) = 0) from fun hc => hne hc.1)]
        intro hmem
        rcases List.mem_cons.mp hmem with he | hmem
        · exact absurd (congrArg Prod.fst he) (by simp)
        · rcases List.mem_append.mp hmem with h | h
          · rcases List.mem_append.mp h with h | h
            · exact specBranchTrace_no_probe env _ _ c h
            · simp at h
          · exact childBranchTrace_no_probe f hf _ _ _ c h

/-- C8: `try_common_openapi_endpoints` fetches exactly the fixed list
of 14 conventional spec paths appended to the base URL in list order
(failures do not abort the remaining paths, the trace is emitted
unconditionally); it records a candidate for a path exactly when that
fetch returns a truthy response with non-empty markdown or html; and
the crawl driver emits probe fetches only from depth 0 and only when
the HTML scan found no embedded spec URLs. -/
theorem probe_common_endpoints_spec :
    common_paths.length = 14 ∧
    (∀ (env : Env) (b : Url), (try_common_openapi_endpoints env b).2 =
       common_paths.map (fun p => (FetchKind.specProbe, mdHtmlCall (b ++ p)))) ∧
    (∀ (env : Env) (b p : Url), p ∈ common_paths →
       ((∃ c ∈ (try_common_openapi_endpoints env b).1, c.url = b ++ p) ↔
        ∃ d, env.fetch (mdHtmlCall (b ++ p)) = .ok (some d) ∧
          (truthyS d.markdown || truthyS d.html) = true)) ∧
    (∀ (env : Env) (url : Url) (depth max_depth : Nat) (v : List Url) (c : FetchCall),
       1 ≤ depth →
       (FetchKind.specProbe, c) ∉ (extract_site_content env url depth max_depth v).2.2) ∧
    (∀ (env : Env) (url : Url) (max_depth : Nat) (v : List Url) (d : ScrapedData)
       (c : FetchCall),
       env.fetch (mainFetchCall url) = .ok (some d) →
       truthyS d.html = true →
       embeddedSpecUrls (d.html.getD []) (schemeNetloc url) ≠ [] →
       (FetchKind.specProbe, c) ∉ (extract_site_content env url 0 max_depth v).2.2) := by
  refine ⟨rfl, ?_, ?_, ?_, ?_⟩
  · intro env b
    exact tryCommonAux_trace env b common_paths
  · intro env b p hp
    constructor
    · intro h
      exact ((tryCommonAux_mem env b common_paths p).mp h).2
    · intro hE
      exact (tryCommonAux_mem env b common_paths p).mpr ⟨hp, hE⟩
  · intro env url dep m v c hdep
    rw [extract_site_content]
    exact extractAux_no_probe_deep env _ url dep m v c (by omega)
  · intro env url m v d c hfetch hhtml hne
    rw [extract_site_content]
    show (FetchKind.specProbe, c) ∉ (extractAux env (m + 1) url 0 m v).2.2
    rw [extractAux]
    exact crawlStep_no_probe_root env _ url m v d
      (fun u' v' c' => extractAux_no_probe_deep env m u' (0 + 1) m v' c' (by omega))
      hfetch hhtml hne c

/-- Environment for the C8 witness: the root page carries an embedded
spec link; the conventional path `/openapi.json` under the root host
answers with content; everything else is falsy. -/
def envC8 : Env :=
  { hasKey := true,
    fetch := fun c =>
      if c.url = str "https://x.com" then
        .ok (some ⟨some (str "hello"),
          some (str "<a href=\"/openapi.json\">spec</a>"), none, none⟩)
      else if c.url = str "https://x.com/openapi.json" then
        .ok (some ⟨some (str "openapi spec"), none, none, none⟩)
      else .ok none }

/-- Witness for C8: a truthy probe response is recorded; a depth-1
crawl emits no probe fetch; a root crawl whose scan finds an embedded
spec emits no probe fetch. -/
theorem probe_common_endpoints_spec_witness :
    (∃ c ∈ (try_common_openapi_endpoints envC8 (str "https://x.com")).1,
       c.url = str "https://x.com" ++ str "/openapi.json") ∧
    (FetchKind.specProbe, mdHtmlCall (str "https://y.com/openapi.json")) ∉
      (extract_site_content envC8 (str "https://y.com") 1 2 []).2.2 ∧
    (FetchKind.specProbe, mdHtmlCall (str "https://x.com/openapi.json")) ∉
      (extract_site_content envC8 (str "https://x.com") 0 1 []).2.2 := by
  refine ⟨?_, ?_, ?_⟩
  · exact (probe_common_endpoints_spec.2.2.1 envC8 (str "https://x.com")
      (str "/openapi.json") (by decide)).mpr
      ⟨⟨some (str "openapi spec"), none, none, none⟩, rfl, by decide⟩
  · exact probe_common_endpoints_spec.2.2.2.1 envC8 (str "https://y.com") 1 2 [] _
      (by omega)
  · exact probe_common_endpoints_spec.2.2.2.2 envC8 (str "https://x.com") 1 []
      ⟨some (str "hello"), some (str "<a href=\"/openapi.json\">spec</a>"), none, none⟩ _
      rfl (by decide) (by decide)
